import Mathlib

/-!
# ARPmon: the scanning engine of `src/main.go`

A shallow embedding of the ARP monitor: the hosts table (a Go `map[int]string`),
the segment arithmetic of `ServerFactory`, the commit of a probe result in
`arp_ping`, the control flow of the worker goroutine `work`, the stop tokens
posted by the signal handler of `main`, and the `csv` renderer.

Go `int` values are modelled by `Int`.  No machine overflow can occur on the
paths modelled here: the products of the segment loop stay within `0 .. 256`
(see `segment_arith_small`), the loop variable of `work` stays at most one
above `max ≤ 254`, and the other counters are bounded by the worker count or
by `2 * WORKER_SLEEP_SEC`.  Limits of memory (a channel or a number of
goroutines too large to allocate) are not modelled.

The goroutines are interleaved by an explicit schedule: a run of the program
is a list of `Action`s, each being one step of one worker, the delivery of the
signal, or one send of the signal handler.  What `arping.Ping` returns is the
environment's choice and comes with the action.
-/

namespace ARPmon

/-! ## Constants (main.go, lines 25-29) -/

def ADDRESS_FIRST : Int := 1
def ADDRESS_LAST : Int := 254
def WORKER_SLEEP_SEC : Nat := 6
/-- The probe timeout `6 * time.Second`, in milliseconds. -/
def ARP_TIMEOUT : Nat := 6 * 1000
def NOT_FOUND : String := ""
/-- The argument of `time.Sleep(500 * time.Millisecond)`, in milliseconds. -/
def SLEEP_INCREMENT_MS : Nat := 500

/-! ## The hosts table: a Go `map[int]string`

The map is an association list with one pair per key.  `Hosts.get` is the Go
index expression `hosts[k]` (the zero value `""` when the key is missing),
`Hosts.set` the assignment `hosts[k] = v` (overwrite when the key is present,
a new key otherwise), `Hosts.len` the builtin `len`. -/

abbrev Hosts := List (Int × String)

/-- The index expression `hosts[k]`. -/
def Hosts.get : Hosts → Int → String
  | [], _ => ""
  | (k', v') :: t, k => if k' = k then v' else Hosts.get t k

/-- The assignment `hosts[k] = v`. -/
def Hosts.set : Hosts → Int → String → Hosts
  | [], k, v => [(k, v)]
  | (k', v') :: t, k, v => if k' = k then (k, v) :: t else (k', v') :: Hosts.set t k v

/-- The keys of the map, in the order of the association list. -/
def Hosts.keys (h : Hosts) : List Int := h.map Prod.fst

/-- The builtin `len(hosts)`. -/
def Hosts.len (h : Hosts) : Nat := h.length

/-- The loop `for i := lo; i <= hi; i++ { s = body(i, s) }` whose body does not
assign `i`: it runs `hi + 1 - lo` times (not at all when `hi < lo`). -/
def forLoop {σ : Type} (lo hi : Int) (body : Int → σ → σ) (s : σ) : σ :=
  (List.range (hi + 1 - lo).toNat).foldl (fun (acc : σ) (k : Nat) => body (lo + (k : Int)) acc) s

/-! ## Segment arithmetic of `ServerFactory` (main.go, lines 78-87) -/

/-- The value of `segment_size := 256 / s.number_of_goroutines` for `n ≥ 1`
(Go's `/` truncates toward zero). -/
def segment_size (n : Int) : Int := Int.tdiv 256 n

/-- The value of `min` that worker `i` is started with. -/
def segment_min (n i : Int) : Int :=
  let min := i * segment_size n
  if min < ADDRESS_FIRST then ADDRESS_FIRST else min

/-- The value of `max` that worker `i` is started with. -/
def segment_max (n i : Int) : Int :=
  let max := (i + 1) * segment_size n - 1
  if max > ADDRESS_LAST then ADDRESS_LAST else max

/-- The pairs `(min, max)` passed to `go s.work(min, max)`, for `i = 0 .. n-1`. -/
def segments (n : Int) : List (Int × Int) :=
  (List.range n.toNat).map (fun (i : Nat) => (segment_min n (i : Int), segment_max n (i : Int)))

/-- Address `a` lies in the segment of worker `i`: the inner loop of `work`
(`for i := min; i <= max; i++`) visits it. -/
def in_segment (n i a : Int) : Prop := segment_min n i ≤ a ∧ a ≤ segment_max n i

instance (n i a : Int) : Decidable (in_segment n i a) := by
  unfold in_segment; infer_instance

/-! ## Library functions used by the program

Only the behaviour the program relies on is modelled: `strings.Split` and
`strings.Join` with the one-character separator `"."`, `strconv.Atoi` on a
64-bit platform, `fmt.Sprint` on an `int` and on a `net.HardwareAddr`, and
`strings.ToUpper` on the ASCII text that `HardwareAddr.String` produces. -/

/-- The pieces of a text between the occurrences of `sep`; a text without
`sep` is one piece, the empty text included. -/
def splitChars (sep : Char) : List Char → List (List Char)
  | [] => [[]]
  | c :: cs =>
    if c = sep then [] :: splitChars sep cs
    else
      match splitChars sep cs with
      | [] => [[c]]
      | h :: t => (c :: h) :: t

/-- Go `strings.Split(s, sep)` for a separator of one character. -/
def Split (s : String) (sep : Char) : List String :=
  (splitChars sep s.data).map String.mk

/-- Go `strings.Join(elems, sep)`. -/
def Join (elems : List String) (sep : String) : String := sep.intercalate elems

/-- The value of a decimal digit `'0' .. '9'`. -/
def digitValue (c : Char) : Option Nat :=
  if 48 ≤ c.toNat ∧ c.toNat ≤ 57 then some (c.toNat - 48) else none

/-- The value of a run of decimal digits, `none` when a character is not a
digit. -/
def parseDigits : List Char → Nat → Option Nat
  | [], acc => some acc
  | c :: cs, acc =>
    match digitValue c with
    | none => none
    | some d => parseDigits cs (10 * acc + d)

/-- Go `strconv.Atoi(s)` with a 64-bit `int`: an optional sign, then one or more
decimal digits, the value in `-2^63 .. 2^63 - 1`; `none` stands for a non-nil
`err`. -/
def Atoi (s : String) : Option Int :=
  match s.data with
  | [] => none
  | '-' :: ds =>
    if ds = [] then none
    else
      match parseDigits ds 0 with
      | none => none
      | some v => if v ≤ 2 ^ 63 then some (-(v : Int)) else none
  | '+' :: ds =>
    if ds = [] then none
    else
      match parseDigits ds 0 with
      | none => none
      | some v => if v < 2 ^ 63 then some (v : Int) else none
  | ds =>
    match parseDigits ds 0 with
    | none => none
    | some v => if v < 2 ^ 63 then some (v : Int) else none

/-- Go `fmt.Sprint(i)` for an `int`: its decimal text. -/
def Sprint (i : Int) : String := toString i

/-- Go `net.HardwareAddr`, a byte slice. -/
abbrev HardwareAddr := List (Fin 256)

/-- The constant `hexDigit` of package `net`. -/
def hexDigit : List Char := "0123456789abcdef".data

/-- The loop of `HardwareAddr.String`: a `:` before every byte but the first,
then the two hex digits `hexDigit[b>>4]` and `hexDigit[b&0xF]`. -/
def HardwareAddr.stringLoop : Nat → List (Fin 256) → List Char → List Char
  | _, [], buf => buf
  | i, b :: rest, buf =>
    let buf := if i > 0 then buf ++ [':'] else buf
    let buf := buf ++ [hexDigit.getD (b.val / 16) '0']
    let buf := buf ++ [hexDigit.getD (b.val % 16) '0']
    HardwareAddr.stringLoop (i + 1) rest buf

/-- Go `fmt.Sprint(mac)` for a `net.HardwareAddr`, which is `mac.String()`. -/
def SprintMAC (a : HardwareAddr) : String := String.mk (HardwareAddr.stringLoop 0 a [])

/-- Go `strings.ToUpper` (on ASCII text). -/
def ToUpper (s : String) : String := String.mk (s.data.map Char.toUpper)

/-! ## The probe and its commit: `arp_ping` (main.go, lines 96-115) -/

/-- A non-nil `err` returned by `arping.Ping`: the value `arping.ErrTimeout`, or
any other error. -/
inductive PingError where
  | ErrTimeout
  | other (msg : String)
  deriving DecidableEq

/-- The triple `mac, msec, err` returned by `arping.Ping`; `err = none` is a nil
error. -/
structure PingReturn where
  mac : HardwareAddr
  duration : Nat
  err : Option PingError
  deriving DecidableEq

/-- The effect of `s.arp_ping(octet, ip)` on `s.hosts`, given what
`arping.Ping(net.ParseIP(ip))` returned.  The probe itself is the environment's
move, so its return value is an argument. -/
def arp_ping (hosts : Hosts) (octet : Int) (r : PingReturn) : Hosts :=
  if r.err = some PingError.ErrTimeout then
    hosts.set octet NOT_FOUND
  else if r.err ≠ none then
    hosts
  else
    let mac_str := ToUpper (SprintMAC r.mac)
    hosts.set octet mac_str

/-! ## The worker goroutine: `work` (main.go, lines 117-141)

`work` is a step machine over its control points.  A step that blocks (the
probe inside `arp_ping`, the `time.Sleep`) begins in one step and completes in
the next, so that a stop token can arrive while the worker is blocked. -/

inductive PC where
  /-- At the head of the outer `for {`. -/
  | outer
  /-- At the test `i <= max` of the inner loop. -/
  | inner (i : Int)
  /-- Inside `s.arp_ping(i, ip)`: the probe is in flight. -/
  | probing (i : Int)
  /-- At the test `j < 2 * WORKER_SLEEP_SEC` of the polling loop. -/
  | poll (i : Int) (j : Nat)
  /-- Inside `time.Sleep(500 * time.Millisecond)`. -/
  | sleeping (i : Int) (j : Nat)
  /-- After `return`: the deferred `s.wg.Done()` has run. -/
  | stopped
  deriving DecidableEq

/-- One goroutine `s.work(min, max)`. -/
structure Worker where
  min : Int
  max : Int
  pc : PC
  deriving DecidableEq

/-- What a step of a worker does to the world outside it. -/
inductive Effect where
  | silent
  /-- The probe of `octet` returned and `arp_ping` committed its result. -/
  | probed (octet : Int)
  /-- A token was received from `s.ch` and `work` returned. -/
  | received
  /-- A `time.Sleep` of `ms` milliseconds ended. -/
  | slept (ms : Nat)
  deriving DecidableEq

/-- One step of `work`.  `token` tells whether `s.ch` holds a token when the
`select` is executed. -/
def work_step (my_octet : Int) (w : Worker) (token : Bool) : Worker × Effect :=
  match w.pc with
  | PC.outer => ({ w with pc := PC.inner w.min }, Effect.silent)
  | PC.inner i =>
    if i ≤ w.max then
      if i ≠ my_octet then ({ w with pc := PC.probing i }, Effect.silent)
      else ({ w with pc := PC.inner (i + 1) }, Effect.silent)
    else ({ w with pc := PC.outer }, Effect.silent)
  | PC.probing i => ({ w with pc := PC.poll i 0 }, Effect.probed i)
  | PC.poll i j =>
    if j < 2 * WORKER_SLEEP_SEC then
      if token then ({ w with pc := PC.stopped }, Effect.received)
      else ({ w with pc := PC.sleeping i j }, Effect.silent)
    else ({ w with pc := PC.inner (i + 1) }, Effect.silent)
  | PC.sleeping i j => ({ w with pc := PC.poll i (j + 1) }, Effect.slept SLEEP_INCREMENT_MS)
  | PC.stopped => (w, Effect.silent)

/-- A worker run on its own: one step per element of `tokens`, which says
whether a token is available at that step.  Returns the worker and the effects
in order. -/
def work_run (my_octet : Int) : Worker → List Bool → Worker × List Effect
  | w, [] => (w, [])
  | w, t :: ts =>
    let r := work_step my_octet w t
    let rest := work_run my_octet r.1 ts
    (rest.1, r.2 :: rest.2)

/-- Total time slept, in milliseconds, over a list of effects. -/
def sleptMs : List Effect → Nat
  | [] => 0
  | Effect.slept ms :: es => ms + sleptMs es
  | _ :: es => sleptMs es

/-- Number of completed polling increments (sleeps) in a list of effects. -/
def sleptCount : List Effect → Nat
  | [] => 0
  | Effect.slept _ :: es => 1 + sleptCount es
  | _ :: es => sleptCount es

/-- Number of completed probes in a list of effects. -/
def probedCount : List Effect → Nat
  | [] => 0
  | Effect.probed _ :: es => 1 + probedCount es
  | _ :: es => probedCount es

/-! ## The server (main.go, lines 39-55) -/

/-- The struct `Server`.  `ch` is the number of tokens buffered in the channel
`s.ch` (capacity `number_of_goroutines`), `wg` the counter of the wait group,
`workers` the goroutines started by `go s.work(min, max)`, `handler` the
signal-handler goroutine of `main`: `none` while it blocks on `<-sigs`, then
`some i` with `i` the counter of its sending loop.  The field `prefix` of the
source is `pfx` here. -/
structure Server where
  wg : Nat
  ch : Nat
  number_of_goroutines : Int
  url_base : String
  pfx : String
  my_octet : Int
  my_mac : String
  hosts : Hosts
  workers : List Worker
  handler : Option Int

/-- The table built by lines 59-62: every address of `1 .. 254` set to
`NOT_FOUND`. -/
def emptyHosts : Hosts :=
  forLoop ADDRESS_FIRST ADDRESS_LAST (fun i hosts => hosts.set i NOT_FOUND) []

/-- `ServerFactory` (main.go, lines 57-94).  `none` stands for the runs that do
not return: `log.Fatal` when `strconv.Atoi` fails, the panic of
`make(chan int, n)` for a negative `n`, the panic of the slice expression
`[:3]` when `cidr` has fewer than three components, and the division by zero
for `n = 0`.  The workers are returned at their first control point: a
goroutine that has not taken a step yet is in the same state whether or not
`go` has been executed for it. -/
def ServerFactory (url_base cidr my_ipv4 my_mac : String) (n : Int) : Option Server :=
  let hosts := emptyHosts
  let octets := Split my_ipv4 '.'
  match Atoi (octets.getLast?.getD "") with
  | none => none
  | some octet =>
    let hosts := hosts.set octet my_mac
    if n < 0 then none
    else
      let parts := Split cidr '.'
      if parts.length < 3 then none
      else
        let pfx := Join (parts.take 3) "." ++ "."
        if n = 0 then none
        else
          some
            { wg := n.toNat
              ch := 0
              number_of_goroutines := n
              url_base := url_base
              pfx := pfx
              my_octet := octet
              my_mac := my_mac
              hosts := hosts
              workers := (segments n).map (fun seg => { min := seg.1, max := seg.2, pc := PC.outer })
              handler := none }

/-- A move of the scheduler or of the environment. -/
inductive Action where
  /-- Worker `k` takes its next step; `r` is what `arping.Ping` returns when
  that step completes a probe. -/
  | worker (k : Nat) (r : PingReturn)
  /-- SIGINT or SIGTERM is delivered: `<-sigs` returns in the handler. -/
  | signal
  /-- The handler executes one iteration of `for i := 0; i < n; i++ { s.ch <- i }`. -/
  | send

/-- What the effect of a worker step does to the shared state: a completed
probe is committed by `arp_ping`; a received token leaves the channel and the
deferred `s.wg.Done()` decrements the wait group. -/
def Server.apply (s : Server) (r : PingReturn) : Effect → Server
  | Effect.silent => s
  | Effect.probed octet => { s with hosts := arp_ping s.hosts octet r }
  | Effect.received => { s with ch := s.ch - 1, wg := s.wg - 1 }
  | Effect.slept _ => s

/-- One step of the whole program. -/
def Server.step (s : Server) : Action → Server
  | Action.worker k r =>
    match s.workers[k]? with
    | none => s
    | some w =>
      let res := work_step s.my_octet w (decide (0 < s.ch))
      Server.apply { s with workers := s.workers.set k res.1 } r res.2
  | Action.signal =>
    match s.handler with
    | none => { s with handler := some 0 }
    | some _ => s
  | Action.send =>
    match s.handler with
    | none => s
    | some i =>
      if i < s.number_of_goroutines then
        if (s.ch : Int) < s.number_of_goroutines then
          { s with ch := s.ch + 1, handler := some (i + 1) }
        else s
      else s

/-- The program after the actions `acts`, taken in order. -/
def Server.run (s : Server) (acts : List Action) : Server := acts.foldl Server.step s

/-- The call `s.wg.Wait()` of `main` returns: the counter is zero. -/
def Server.waitReturns (s : Server) : Prop := s.wg = 0

/-! ## The CSV renderer: `csv` (main.go, lines 163-177) -/

/-- Go `fmt.Sprintf("%s,%s\n", ip, mac)`. -/
def csvLine (ip mac : String) : String := ip ++ "," ++ mac ++ "\n"

/-- The method `csv`: over `i = 1 .. 254`, a line is appended to `response`
when `hosts[i]` is not `NOT_FOUND`. -/
def Server.csv (s : Server) (pfx : String) : String :=
  forLoop ADDRESS_FIRST ADDRESS_LAST
    (fun i response =>
      let mac := s.hosts.get i
      if NOT_FOUND ≠ mac then
        let ip := pfx ++ Sprint i
        response ++ csvLine ip mac
      else response)
    ""

/-- The addresses `1 .. 254` in ascending order whose entry is not the absent
sentinel. -/
def resolvedAddresses (s : Server) : List Int :=
  ((List.range 254).map (fun (k : Nat) => (k : Int) + 1)).filter
    (fun i => decide (s.hosts.get i ≠ NOT_FOUND))

/-- The rows as the specification words them: one line `<pfx><i>,<mac>` ended
by a newline for each resolved address, in ascending order of address. -/
def csvRows (s : Server) (pfx : String) : List String :=
  (resolvedAddresses s).map (fun i => pfx ++ Sprint i ++ "," ++ s.hosts.get i ++ "\n")

/-- The newline-terminated lines of a text, in order, each without its
newline; what follows the last newline is not a line. -/
def textLines (t : String) : List String :=
  ((splitChars '\n' t.data).dropLast).map String.mk

/-- The row of address `i` without its newline. -/
def csvRowBody (s : Server) (pfx : String) (i : Int) : String :=
  pfx ++ Sprint i ++ "," ++ s.hosts.get i

/-! ## Invariants of the running program -/

/-- The loop variable of a worker is where its control point says: never below
`min`, and within the segment and different from the own octet while a probe
is in flight. -/
def Worker.ok (my_octet : Int) (w : Worker) : Prop :=
  match w.pc with
  | PC.outer => True
  | PC.inner i => w.min ≤ i
  | PC.probing i => w.min ≤ i ∧ i ≤ w.max ∧ i ≠ my_octet
  | PC.poll i _ => w.min ≤ i
  | PC.sleeping i _ => w.min ≤ i
  | PC.stopped => True

/-- The number of workers that have not returned. -/
def activeWorkers : List Worker → Nat
  | [] => 0
  | w :: ws => (if w.pc = PC.stopped then 0 else 1) + activeWorkers ws

/-- The invariant of the running program: every worker is `Worker.ok` on a
segment inside `1 .. 254`, and the wait-group counter is the number of workers
that have not returned. -/
structure Server.Inv (s : Server) : Prop where
  workers_ok : ∀ w ∈ s.workers, Worker.ok s.my_octet w ∧ 1 ≤ w.min ∧ w.max ≤ 254
  wg_count : s.wg = activeWorkers s.workers

/-- The number of tokens the signal handler has sent so far. -/
def Server.sent (s : Server) : Nat :=
  match s.handler with
  | none => 0
  | some i => i.toNat

/-- The token accounting of the running program: the tokens in the channel are
those sent and not yet received, each worker that returned received one, and
the handler's counter stays within `0 .. n`. -/
structure Server.TokenInv (s : Server) : Prop where
  balance : s.ch + s.number_of_goroutines.toNat = s.wg + s.sent
  wg_le : s.wg ≤ s.number_of_goroutines.toNat
  n_nonneg : 0 ≤ s.number_of_goroutines
  counter : ∀ i, s.handler = some i → 0 ≤ i ∧ i ≤ s.number_of_goroutines

/-- Worker `w`, run on its own with a token available at every check, has
returned after `k` steps, having completed at most `p` probes and at most `q`
sleeps on the way. -/
def StopsWithin (my_octet : Int) (w : Worker) (k p q : Nat) : Prop :=
  (work_run my_octet w (List.replicate k true)).1.pc = PC.stopped ∧
  probedCount (work_run my_octet w (List.replicate k true)).2 ≤ p ∧
  sleptCount (work_run my_octet w (List.replicate k true)).2 ≤ q

/-- A worker whose segment holds no address to probe (it is empty, or holds
the own octet only), at one of the control points it can ever be at: the head
of the outer loop or the test of the inner loop. -/
def Worker.spinning (my_octet : Int) (w : Worker) : Prop :=
  (∀ a : Int, w.min ≤ a → a ≤ w.max → a = my_octet) ∧
  (w.pc = PC.outer ∨ ∃ i : Int, w.pc = PC.inner i ∧ w.min ≤ i)


/-! ## A small server for evaluating the model -/

/-- A one-worker server with a four-entry table. -/
def exampleServer : Server :=
  { wg := 1, ch := 0, number_of_goroutines := 1, url_base := "/", pfx := "192.168.1.",
    my_octet := 7, my_mac := "AA:AA:AA:AA:AA:AA",
    hosts := [(1, ""), (2, "B8:27:EB:01:0A:FF"), (3, ""), (7, "AA:AA:AA:AA:AA:AA")],
    workers := [⟨1, 254, PC.outer⟩], handler := none }

/-- The worker enters its loop, starts the probe of address 1, the probe
succeeds; then the signal arrives, the handler sends its token, and the worker
receives it at its first check. -/
def exampleActs : List Action :=
  [Action.worker 0 ⟨[], 0, none⟩, Action.worker 0 ⟨[], 0, none⟩,
   Action.worker 0 ⟨[0xb8, 0x27, 0xeb, 0x01, 0x0a, 0x01], 1200, none⟩,
   Action.signal, Action.send, Action.worker 0 ⟨[], 0, none⟩]

end ARPmon

namespace ARPmon

/-! ## Lemmas on the hosts table -/

theorem Hosts.get_set_same (h : Hosts) (k : Int) (v : String) : (h.set k v).get k = v := by
  induction h with
  | nil => simp [Hosts.set, Hosts.get]
  | cons p t ih =>
    obtain ⟨k', v'⟩ := p
    by_cases hk : k' = k
    · simp [Hosts.set, Hosts.get, hk]
    · simp [Hosts.set, Hosts.get, hk, ih]

theorem Hosts.get_set_ne (h : Hosts) (k k2 : Int) (v : String) (hne : k2 ≠ k) :
    (h.set k v).get k2 = h.get k2 := by
  induction h with
  | nil => simp [Hosts.set, Hosts.get, Ne.symm hne]
  | cons p t ih =>
    obtain ⟨k', v'⟩ := p
    by_cases hk : k' = k
    · subst hk
      simp [Hosts.set, Hosts.get, Ne.symm hne]
    · by_cases hk2 : k' = k2
      · subst hk2
        simp [Hosts.set, Hosts.get, hk]
      · simp [Hosts.set, Hosts.get, hk, hk2, ih]

theorem Hosts.keys_set_mem (h : Hosts) (k : Int) (v : String) (hmem : k ∈ h.keys) :
    (h.set k v).keys = h.keys := by
  induction h with
  | nil => simp [Hosts.keys] at hmem
  | cons p t ih =>
    obtain ⟨k', v'⟩ := p
    by_cases hk : k' = k
    · simp [Hosts.set, Hosts.keys, hk]
    · have ht : k ∈ Hosts.keys t := by
        simp only [Hosts.keys, List.map_cons, List.mem_cons] at hmem
        rcases hmem with h1 | h1
        · exact absurd h1.symm hk
        · exact h1
      have := ih ht
      simp only [Hosts.keys] at this
      simp [Hosts.set, Hosts.keys, hk, this]

theorem Hosts.keys_set_not_mem (h : Hosts) (k : Int) (v : String) (hmem : k ∉ h.keys) :
    (h.set k v).keys = h.keys ++ [k] := by
  induction h with
  | nil => simp [Hosts.set, Hosts.keys]
  | cons p t ih =>
    obtain ⟨k', v'⟩ := p
    simp only [Hosts.keys, List.map_cons, List.mem_cons, not_or] at hmem
    have hk : ¬ k' = k := fun e => hmem.1 e.symm
    have := ih hmem.2
    simp only [Hosts.keys] at this
    simp [Hosts.set, Hosts.keys, hk, this]

theorem Hosts.get_of_not_mem (h : Hosts) (k : Int) (hmem : k ∉ h.keys) : h.get k = "" := by
  induction h with
  | nil => simp [Hosts.get]
  | cons p t ih =>
    obtain ⟨k', v'⟩ := p
    simp only [Hosts.keys, List.map_cons, List.mem_cons, not_or] at hmem
    have hk : ¬ k' = k := fun e => hmem.1 e.symm
    simp only [Hosts.get, hk, if_false]
    exact ih hmem.2

theorem Hosts.len_eq_keys_length (h : Hosts) : h.len = h.keys.length := by
  simp [Hosts.len, Hosts.keys]

/-! ## Lemmas on the segment arithmetic -/

theorem segment_size_nonneg (n : Int) (hn : 1 ≤ n) : 0 ≤ segment_size n := by
  unfold segment_size
  exact Int.tdiv_nonneg (by norm_num) (by omega)

theorem segment_size_mul_le (n : Int) (hn : 1 ≤ n) : n * segment_size n ≤ 256 := by
  unfold segment_size
  rw [Int.tdiv_eq_ediv (by norm_num : (0 : Int) ≤ 256) (by omega : 0 ≤ n)]
  exact Int.mul_ediv_self_le (by omega)

/-- Every product the segment loop forms lies in `0 .. 256`: the arithmetic of
lines 78-87 cannot overflow a machine `int`. -/
theorem segment_arith_small (n i : Int) (hn : 1 ≤ n) (hi : 0 ≤ i) (hin : i < n) :
    0 ≤ i * segment_size n ∧ i * segment_size n ≤ 256 ∧
    0 ≤ (i + 1) * segment_size n ∧ (i + 1) * segment_size n ≤ 256 := by
  have hs := segment_size_nonneg n hn
  have hm := segment_size_mul_le n hn
  have h1 : i * segment_size n ≤ n * segment_size n :=
    Int.mul_le_mul_of_nonneg_right (by omega) hs
  have h2 : (i + 1) * segment_size n ≤ n * segment_size n :=
    Int.mul_le_mul_of_nonneg_right (by omega) hs
  refine ⟨Int.mul_nonneg hi hs, by omega, Int.mul_nonneg (by omega) hs, by omega⟩

theorem segments_length (n : Int) : (segments n).length = n.toNat := by
  simp [segments]

theorem segments_get (n : Int) (i : Nat) (hi : (i : Int) < n) :
    (segments n)[i]? = some (segment_min n i, segment_max n i) := by
  have : i < n.toNat := by omega
  simp [segments, List.getElem?_range this]

theorem segments_ordered (n i j : Int) (hn : 1 ≤ n) (hij : i < j) (a : Int) :
    ¬ (in_segment n i a ∧ in_segment n j a) := by
  rintro ⟨⟨_, h2⟩, ⟨h3, _⟩⟩
  have hs := segment_size_nonneg n hn
  have hmul : (i + 1) * segment_size n ≤ j * segment_size n :=
    Int.mul_le_mul_of_nonneg_right (by omega) hs
  unfold segment_max at h2
  unfold segment_min at h3
  simp only [ADDRESS_FIRST, ADDRESS_LAST] at h2 h3
  split_ifs at h2 h3 <;> omega

/-- Where the segments do cover `1 .. 254`: whenever `n * (256 / n)` reaches
255, which is the case for the default `n = 4` and for every `n` that divides
256 or 255. -/
theorem segments_cover_of_le (n a : Int) (hn : 1 ≤ n) (hfull : 255 ≤ n * segment_size n)
    (ha : ADDRESS_FIRST ≤ a ∧ a ≤ ADDRESS_LAST) :
    ∃ i : Int, 0 ≤ i ∧ i < n ∧ in_segment n i a := by
  simp only [ADDRESS_FIRST, ADDRESS_LAST] at ha
  have hs0 := segment_size_nonneg n hn
  have hspos : 0 < segment_size n := by
    by_contra h
    have h0 : segment_size n = 0 := by omega
    rw [h0] at hfull
    omega
  have h1 : a / segment_size n * segment_size n ≤ a := Int.ediv_mul_le a (by omega)
  have h2 : a < (a / segment_size n + 1) * segment_size n :=
    Int.lt_ediv_add_one_mul_self a hspos
  have h3 : a / segment_size n < n := Int.ediv_lt_of_lt_mul hspos (by omega)
  have h4 : 0 ≤ a / segment_size n := Int.ediv_nonneg (by omega) hs0
  refine ⟨a / segment_size n, h4, h3, ?_, ?_⟩
  · unfold segment_min
    simp only [ADDRESS_FIRST]
    split_ifs <;> omega
  · unfold segment_max
    simp only [ADDRESS_LAST]
    split_ifs <;> omega

/-- Where the segments leave a gap: whenever `n * (256 / n)` stays below 255,
address 254 is in no segment. -/
theorem segments_gap_of_lt (n : Int) (hn : 1 ≤ n) (hshort : n * segment_size n < 255) :
    ¬ ∃ i : Int, 0 ≤ i ∧ i < n ∧ in_segment n i 254 := by
  rintro ⟨i, h0, hlt, _, hmax⟩
  have hs0 := segment_size_nonneg n hn
  have hmul : (i + 1) * segment_size n ≤ n * segment_size n :=
    Int.mul_le_mul_of_nonneg_right (by omega) hs0
  unfold segment_max at hmax
  simp only [ADDRESS_LAST] at hmax
  split_ifs at hmax <;> omega

/-! ## Lemmas on the text form of a hardware address -/

theorem HardwareAddr.stringLoop_length (a : List (Fin 256)) (i : Nat) (buf : List Char) :
    buf.length + 2 * a.length ≤ (HardwareAddr.stringLoop i a buf).length := by
  induction a generalizing i buf with
  | nil => simp [HardwareAddr.stringLoop]
  | cons b rest ih =>
    simp only [HardwareAddr.stringLoop, List.length_cons]
    refine le_trans ?_ (ih _ _)
    split_ifs <;> simp only [List.length_append, List.length_singleton] <;> omega

theorem mac_str_ne_NOT_FOUND (X : HardwareAddr) (hX : X ≠ []) :
    ToUpper (SprintMAC X) ≠ NOT_FOUND := by
  intro h
  have hlen : (ToUpper (SprintMAC X)).data.length = 0 := by rw [h]; rfl
  have h2 := HardwareAddr.stringLoop_length X 0 []
  have h3 : 0 < X.length := List.length_pos.mpr hX
  simp only [ToUpper, SprintMAC, List.length_map] at hlen
  simp only [List.length_nil] at h2
  omega

/-! ## Lemmas on loops and on the CSV rows -/

theorem forLoop_first_last {σ : Type} (body : Int → σ → σ) (init : σ) :
    forLoop ADDRESS_FIRST ADDRESS_LAST body init =
      ((List.range 254).map (fun (k : Nat) => (k : Int) + 1)).foldl (fun acc i => body i acc) init := by
  have h254 : (ADDRESS_LAST + 1 - ADDRESS_FIRST).toNat = 254 := by decide
  unfold forLoop
  rw [h254, List.foldl_map]
  congr 1
  funext acc k
  simp [ADDRESS_FIRST, add_comm]

theorem foldl_append_join (l : List String) (init : String) :
    l.foldl (fun r s => r ++ s) init = init ++ String.join l := by
  induction l generalizing init with
  | nil => simp [String.join]
  | cons a t ih =>
    simp only [List.foldl_cons, String.join]
    rw [ih, ih ("" ++ a), String.empty_append, String.append_assoc]

theorem foldl_rows (l : List Int) (keep : Int → Bool) (row : Int → String) (init : String) :
    l.foldl (fun acc i => if keep i then acc ++ row i else acc) init =
      init ++ String.join ((l.filter keep).map row) := by
  induction l generalizing init with
  | nil => simp [String.join]
  | cons a t ih =>
    rw [List.foldl_cons, ih]
    by_cases hk : keep a = true
    · simp only [hk, if_true, List.filter_cons_of_pos, List.map_cons]
      simp only [String.join, List.foldl_cons]
      rw [foldl_append_join _ ("" ++ row a), String.empty_append, String.append_assoc]
      rfl
    · simp [hk]

theorem addresses_sorted :
    List.Sorted (fun a b : Int => a < b) ((List.range 254).map (fun (k : Nat) => (k : Int) + 1)) := by
  refine List.Pairwise.map _ ?_ (List.pairwise_lt_range 254)
  intro a b hab
  omega

theorem mem_addresses (i : Int) :
    i ∈ (List.range 254).map (fun (k : Nat) => (k : Int) + 1) ↔ 1 ≤ i ∧ i ≤ 254 := by
  simp only [List.mem_map, List.mem_range]
  constructor
  · rintro ⟨k, hk, rfl⟩
    omega
  · intro h
    exact ⟨(i - 1).toNat, by omega, by omega⟩

theorem mem_resolvedAddresses (s : Server) (i : Int) :
    i ∈ resolvedAddresses s ↔ (1 ≤ i ∧ i ≤ 254) ∧ s.hosts.get i ≠ NOT_FOUND := by
  unfold resolvedAddresses
  rw [List.mem_filter, mem_addresses]
  simp

theorem csv_eq_join_rows (s : Server) (pfx : String) :
    s.csv pfx = String.join (csvRows s pfx) := by
  unfold Server.csv
  rw [forLoop_first_last]
  have hbody : (fun (acc : String) (i : Int) =>
        (let mac := s.hosts.get i
         if NOT_FOUND ≠ mac then
           let ip := pfx ++ Sprint i
           acc ++ csvLine ip mac
         else acc)) =
      (fun acc i => if (decide (s.hosts.get i ≠ NOT_FOUND)) = true
        then acc ++ (pfx ++ Sprint i ++ "," ++ s.hosts.get i ++ "\n") else acc) := by
    funext acc i
    by_cases h : s.hosts.get i = NOT_FOUND
    · simp [h]
    · have h2 : ¬ NOT_FOUND = s.hosts.get i := fun e => h e.symm
      simp [h, h2, csvLine]
  rw [hbody, foldl_rows, String.empty_append]
  rfl

theorem resolvedAddresses_sorted (s : Server) :
    List.Sorted (fun a b : Int => a < b) (resolvedAddresses s) :=
  List.Sorted.filter _ addresses_sorted

theorem resolvedAddresses_length (s : Server) :
    (resolvedAddresses s).length =
      ((Finset.Icc (1 : Int) 254).filter (fun i => s.hosts.get i ≠ NOT_FOUND)).card := by
  have hnodup : (resolvedAddresses s).Nodup := (resolvedAddresses_sorted s).nodup
  have hfin : (resolvedAddresses s).toFinset =
      (Finset.Icc (1 : Int) 254).filter (fun i => s.hosts.get i ≠ NOT_FOUND) := by
    ext i
    simp only [List.mem_toFinset, Finset.mem_filter, Finset.mem_Icc]
    exact mem_resolvedAddresses s i
  rw [← hfin, List.toFinset_card_of_nodup hnodup]

theorem csvRows_eq_bodies (s : Server) (pfx : String) :
    csvRows s pfx = ((resolvedAddresses s).map (csvRowBody s pfx)).map (fun b => b ++ "\n") := by
  simp [csvRows, csvRowBody, List.map_map, Function.comp_def]

theorem splitChars_ne_nil (sep : Char) (cs : List Char) : splitChars sep cs ≠ [] := by
  cases cs with
  | nil => simp [splitChars]
  | cons c cs =>
    simp only [splitChars]
    split_ifs
    · simp
    · cases splitChars sep cs <;> simp

/-- A piece without the separator, followed by the separator, is the first
piece of the split. -/
theorem splitChars_append_sep (sep : Char) (a rest : List Char) (ha : sep ∉ a) :
    splitChars sep (a ++ sep :: rest) = a :: splitChars sep rest := by
  induction a with
  | nil => simp [splitChars]
  | cons c t ih =>
    simp only [List.mem_cons, not_or] at ha
    have hc : ¬ c = sep := fun e => ha.1 e.symm
    have hstep : splitChars sep (c :: (t ++ sep :: rest)) =
        match splitChars sep (t ++ sep :: rest) with
        | [] => [[c]]
        | h :: tl => (c :: h) :: tl := by
      simp only [splitChars, hc, if_false]
    rw [List.cons_append, hstep, ih ha.2]

theorem String.join_cons_eq (a : String) (t : List String) :
    String.join (a :: t) = a ++ String.join t := by
  simp only [String.join, List.foldl_cons]
  rw [foldl_append_join, String.empty_append]
  rfl

/-- The lines of a text made of bodies without a newline, each followed by a
newline, are the bodies. -/
theorem textLines_join (bodies : List String) (h : ∀ b ∈ bodies, '\n' ∉ b.data) :
    textLines (String.join (bodies.map (fun b => b ++ "\n"))) = bodies := by
  have hsplit : ∀ l : List String, (∀ b ∈ l, '\n' ∉ b.data) →
      splitChars '\n' (String.join (l.map (fun b => b ++ "\n"))).data =
        l.map (fun b => b.data) ++ [[]] := by
    intro l hl
    induction l with
    | nil => rfl
    | cons b t ih =>
      rw [List.map_cons, String.join_cons_eq, String.data_append, String.data_append]
      have hnl : ("\n" : String).data = ['\n'] := rfl
      rw [hnl, List.append_assoc, List.singleton_append,
        splitChars_append_sep _ _ _ (hl b (List.mem_cons_self b t)),
        ih (fun x hx => hl x (List.mem_cons_of_mem b hx))]
      rfl
  unfold textLines
  rw [hsplit bodies h, List.dropLast_concat, List.map_map]
  have hid : (String.mk ∘ fun (b : String) => b.data) = id := by
    funext b
    rfl
  rw [hid, List.map_id]

set_option maxRecDepth 100000 in
/-- For the addresses `1 .. 254`, `Sprint i` is the decimal text of `i`: digits
only, no leading zero, and it parses back to `i`. -/
theorem Sprint_decimal :
    ∀ i ∈ (List.range 254).map (fun (k : Nat) => (k : Int) + 1),
      Atoi (Sprint i) = some i ∧ (Sprint i).data.all Char.isDigit = true ∧
      (Sprint i).data.head? ≠ some '0' := by
  decide

theorem isDigit_ne_newline (cs : List Char) (h : cs.all Char.isDigit = true) : '\n' ∉ cs := by
  intro hmem
  have := List.all_eq_true.mp h _ hmem
  exact absurd this (by decide)

theorem csvRowBody_no_newline (s : Server) (pfx : String) (i : Int)
    (hi : 1 ≤ i ∧ i ≤ 254) (hp : '\n' ∉ pfx.data) (hm : '\n' ∉ (s.hosts.get i).data) :
    '\n' ∉ (csvRowBody s pfx i).data := by
  have hd := isDigit_ne_newline _ (Sprint_decimal i ((mem_addresses i).mpr hi)).2.1
  have hcomma : '\n' ∉ (",": String).data := by decide
  simp only [csvRowBody, String.data_append, List.mem_append, not_or]
  exact ⟨⟨⟨hp, hd⟩, hcomma⟩, hm⟩

/-! ## Lemmas on the worker and on the program steps -/

theorem arp_ping_get_ne (hosts : Hosts) (A B : Int) (r : PingReturn) (hne : B ≠ A) :
    (arp_ping hosts A r).get B = hosts.get B := by
  unfold arp_ping
  split_ifs
  · exact Hosts.get_set_ne _ _ _ _ hne
  · rfl
  · exact Hosts.get_set_ne _ _ _ _ hne

theorem arp_ping_keys (hosts : Hosts) (A : Int) (r : PingReturn) (hmem : A ∈ hosts.keys) :
    (arp_ping hosts A r).keys = hosts.keys := by
  unfold arp_ping
  split_ifs
  · exact Hosts.keys_set_mem _ _ _ hmem
  · rfl
  · exact Hosts.keys_set_mem _ _ _ hmem

theorem work_step_bounds (my_octet : Int) (w : Worker) (token : Bool) :
    (work_step my_octet w token).1.min = w.min ∧ (work_step my_octet w token).1.max = w.max := by
  unfold work_step
  cases w.pc <;> simp <;> split_ifs <;> simp

theorem work_step_ok (my_octet : Int) (w : Worker) (token : Bool)
    (hok : Worker.ok my_octet w) : Worker.ok my_octet (work_step my_octet w token).1 := by
  obtain ⟨mn, mx, pc⟩ := w
  cases pc with
  | outer => simp [work_step, Worker.ok]
  | inner i =>
    simp only [Worker.ok] at hok
    simp only [work_step]
    split_ifs with h1 h2
    · exact ⟨hok, h1, h2⟩
    · show mn ≤ i + 1
      omega
    · trivial
  | probing i =>
    simp only [Worker.ok] at hok
    exact hok.1
  | poll i j =>
    simp only [Worker.ok] at hok
    simp only [work_step]
    split_ifs
    · trivial
    · exact hok
    · show mn ≤ i + 1
      omega
  | sleeping i j => exact hok
  | stopped => trivial

theorem work_step_probed (my_octet : Int) (w : Worker) (token : Bool) (octet : Int)
    (hok : Worker.ok my_octet w) (he : (work_step my_octet w token).2 = Effect.probed octet) :
    w.min ≤ octet ∧ octet ≤ w.max ∧ octet ≠ my_octet := by
  obtain ⟨mn, mx, pc⟩ := w
  cases pc with
  | probing i =>
    simp only [work_step, Effect.probed.injEq] at he
    subst he
    exact hok
  | outer => simp [work_step] at he
  | inner i => simp only [work_step] at he; split_ifs at he
  | poll i j => simp only [work_step] at he; split_ifs at he
  | sleeping i j => simp [work_step] at he
  | stopped => simp [work_step] at he

/-- How a step changes the count of `activeWorkers`: it drops by one exactly
when the step receives a token. -/
theorem work_step_active (my_octet : Int) (w : Worker) (token : Bool) :
    ((work_step my_octet w token).2 = Effect.received →
      w.pc ≠ PC.stopped ∧ (work_step my_octet w token).1.pc = PC.stopped) ∧
    ((work_step my_octet w token).2 ≠ Effect.received →
      ((work_step my_octet w token).1.pc = PC.stopped ↔ w.pc = PC.stopped)) := by
  obtain ⟨mn, mx, pc⟩ := w
  cases pc <;> simp [work_step] <;> split_ifs <;> simp

theorem work_step_spinning (my_octet : Int) (w : Worker) (token : Bool)
    (hs : Worker.spinning my_octet w) :
    Worker.spinning my_octet (work_step my_octet w token).1 := by
  obtain ⟨mn, mx, pc⟩ := w
  obtain ⟨hseg, hpc | ⟨i, hpc, hi⟩⟩ := hs
  · simp only at hpc hseg
    subst hpc
    exact ⟨hseg, Or.inr ⟨mn, rfl, le_refl mn⟩⟩
  · simp only at hpc hseg hi
    subst hpc
    simp only [work_step]
    split_ifs with h1 h2
    · exact absurd (hseg i hi h1) h2
    · exact ⟨hseg, Or.inr ⟨i + 1, rfl, by show mn ≤ i + 1; omega⟩⟩
    · exact ⟨hseg, Or.inl rfl⟩

theorem spinning_notStopped (my_octet : Int) (w : Worker) (hs : Worker.spinning my_octet w) :
    w.pc ≠ PC.stopped := by
  rcases hs.2 with h | ⟨i, h, _⟩ <;> rw [h] <;> simp

theorem activeWorkers_set (ws : List Worker) (k : Nat) (w w2 : Worker)
    (hk : ws[k]? = some w) :
    activeWorkers (ws.set k w2) + (if w.pc = PC.stopped then 0 else 1) =
      activeWorkers ws + (if w2.pc = PC.stopped then 0 else 1) := by
  induction ws generalizing k with
  | nil => simp at hk
  | cons a t ih =>
    cases k with
    | zero =>
      simp only [List.getElem?_cons_zero, Option.some.injEq] at hk
      subst hk
      simp only [List.set_cons_zero, activeWorkers]
      omega
    | succ k =>
      simp only [List.getElem?_cons_succ] at hk
      have := ih k hk
      simp only [List.set_cons_succ, activeWorkers]
      omega

theorem workers_set_ok (s : Server) (k : Nat) (w : Worker) (token : Bool)
    (hinv : s.Inv) (hw : s.workers[k]? = some w) :
    ∀ w2 ∈ s.workers.set k (work_step s.my_octet w token).1,
      Worker.ok s.my_octet w2 ∧ 1 ≤ w2.min ∧ w2.max ≤ 254 := by
  intro w2 hmem
  have hwin := hinv.workers_ok w (List.getElem?_mem hw)
  rcases List.mem_or_eq_of_mem_set hmem with h | h
  · exact hinv.workers_ok w2 h
  · subst h
    have hb := work_step_bounds s.my_octet w token
    exact ⟨work_step_ok _ _ _ hwin.1, by rw [hb.1]; exact hwin.2.1, by rw [hb.2]; exact hwin.2.2⟩

theorem workers_set_get (ws : List Worker) (k j : Nat) (w w2 wj : Worker)
    (hw : ws[k]? = some w) (hj : ws[j]? = some wj) :
    (ws.set k w2)[j]? = some wj ∨ (wj = w ∧ (ws.set k w2)[j]? = some w2) := by
  rw [List.getElem?_set]
  by_cases hkj : k = j
  · subst hkj
    right
    have hlt : k < ws.length := by
      by_contra hcon
      rw [List.getElem?_eq_none (by omega)] at hw
      exact Option.noConfusion hw
    rw [hw] at hj
    exact ⟨(Option.some.inj hj).symm, by simp [hlt]⟩
  · left
    simp [hkj, hj]

/-- What one step of the program does: it keeps the invariant and the own
octet and identifier; it leaves the table alone or commits one probe result
for an address of `1 .. 254` other than the own octet; and each worker stays
as it is or takes one step of `work`. -/
theorem Server.step_facts (s : Server) (a : Action) (hinv : s.Inv) :
    (s.step a).Inv ∧ (s.step a).my_octet = s.my_octet ∧ (s.step a).my_mac = s.my_mac ∧
    ((s.step a).hosts = s.hosts ∨
      ∃ octet r, (1 ≤ octet ∧ octet ≤ 254) ∧ octet ≠ s.my_octet ∧
        (s.step a).hosts = arp_ping s.hosts octet r) ∧
    (∀ (j : Nat) (wj : Worker), s.workers[j]? = some wj →
      (s.step a).workers[j]? = some wj ∨
      ∃ token, (s.step a).workers[j]? = some (work_step s.my_octet wj token).1) := by
  cases a with
  | signal =>
    cases hh : s.handler with
    | none =>
      have e : s.step Action.signal = { s with handler := some 0 } := by
        simp only [Server.step, hh]
      rw [e]
      exact ⟨⟨hinv.workers_ok, hinv.wg_count⟩, rfl, rfl, Or.inl rfl, fun j wj h => Or.inl h⟩
    | some i =>
      have e : s.step Action.signal = s := by simp only [Server.step, hh]
      rw [e]
      exact ⟨hinv, rfl, rfl, Or.inl rfl, fun j wj h => Or.inl h⟩
  | send =>
    cases hh : s.handler with
    | none =>
      have e : s.step Action.send = s := by simp only [Server.step, hh]
      rw [e]
      exact ⟨hinv, rfl, rfl, Or.inl rfl, fun j wj h => Or.inl h⟩
    | some i =>
      have e : s.step Action.send =
          if i < s.number_of_goroutines then
            if (s.ch : Int) < s.number_of_goroutines then
              { s with ch := s.ch + 1, handler := some (i + 1) }
            else s
          else s := by simp only [Server.step, hh]
      rw [e]
      split_ifs
      · exact ⟨⟨hinv.workers_ok, hinv.wg_count⟩, rfl, rfl, Or.inl rfl, fun j wj h => Or.inl h⟩
      · exact ⟨hinv, rfl, rfl, Or.inl rfl, fun j wj h => Or.inl h⟩
      · exact ⟨hinv, rfl, rfl, Or.inl rfl, fun j wj h => Or.inl h⟩
  | worker k r =>
    cases hw : s.workers[k]? with
    | none =>
      have e : s.step (Action.worker k r) = s := by simp only [Server.step, hw]
      rw [e]
      exact ⟨hinv, rfl, rfl, Or.inl rfl, fun j wj h => Or.inl h⟩
    | some w =>
      have e : s.step (Action.worker k r) =
          Server.apply
            { s with workers := s.workers.set k (work_step s.my_octet w (decide (0 < s.ch))).1 }
            r (work_step s.my_octet w (decide (0 < s.ch))).2 := by
        simp only [Server.step, hw]
      rw [e]
      have hwin := hinv.workers_ok w (List.getElem?_mem hw)
      have hset := workers_set_ok s k w (decide (0 < s.ch)) hinv hw
      have hact := work_step_active s.my_octet w (decide (0 < s.ch))
      have hcount := activeWorkers_set s.workers k w
        (work_step s.my_octet w (decide (0 < s.ch))).1 hw
      have hget : ∀ (j : Nat) (wj : Worker), s.workers[j]? = some wj →
          (s.workers.set k (work_step s.my_octet w (decide (0 < s.ch))).1)[j]? = some wj ∨
          ∃ token, (s.workers.set k (work_step s.my_octet w (decide (0 < s.ch))).1)[j]? =
            some (work_step s.my_octet wj token).1 := by
        intro j wj hj
        rcases workers_set_get s.workers k j w _ wj hw hj with h | ⟨h1, h2⟩
        · exact Or.inl h
        · subst h1
          exact Or.inr ⟨_, h2⟩
      have hwg : ∀ e, (work_step s.my_octet w (decide (0 < s.ch))).2 = e → e ≠ Effect.received →
          s.wg = activeWorkers (s.workers.set k (work_step s.my_octet w (decide (0 < s.ch))).1) := by
        intro e he hne
        have hiff := hact.2 (by rw [he]; exact hne)
        rw [hinv.wg_count]
        by_cases hst : w.pc = PC.stopped
        · have := hiff.mpr hst
          simp only [hst, this, if_true] at hcount
          omega
        · have : ¬ (work_step s.my_octet w (decide (0 < s.ch))).1.pc = PC.stopped :=
            fun h => hst (hiff.mp h)
          simp only [hst, this, if_false] at hcount
          omega
      cases he : (work_step s.my_octet w (decide (0 < s.ch))).2 with
      | silent =>
        exact ⟨⟨hset, hwg _ he (by simp)⟩, rfl, rfl, Or.inl rfl, hget⟩
      | slept ms =>
        exact ⟨⟨hset, hwg _ he (by simp)⟩, rfl, rfl, Or.inl rfl, hget⟩
      | probed octet =>
        have hp := work_step_probed s.my_octet w _ octet hwin.1 he
        refine ⟨⟨hset, hwg _ he (by simp)⟩, rfl, rfl, Or.inr ⟨octet, r, ?_, hp.2.2, rfl⟩, hget⟩
        constructor <;> omega
      | received =>
        have h := hact.1 he
        refine ⟨⟨hset, ?_⟩, rfl, rfl, Or.inl rfl, hget⟩
        show s.wg - 1 =
          activeWorkers (s.workers.set k (work_step s.my_octet w (decide (0 < s.ch))).1)
        have hwg0 := hinv.wg_count
        simp only [h.1, h.2, if_true, if_false] at hcount
        omega

theorem Server.run_cons (s : Server) (a : Action) (acts : List Action) :
    s.run (a :: acts) = (s.step a).run acts := rfl

theorem Server.run_inv (s : Server) (acts : List Action) (hinv : s.Inv) :
    (s.run acts).Inv ∧ (s.run acts).my_octet = s.my_octet ∧ (s.run acts).my_mac = s.my_mac := by
  induction acts generalizing s with
  | nil => exact ⟨hinv, rfl, rfl⟩
  | cons a acts ih =>
    have hf := Server.step_facts s a hinv
    have := ih (s.step a) hf.1
    rw [Server.run_cons]
    exact ⟨this.1, this.2.1.trans hf.2.1, this.2.2.trans hf.2.2.1⟩

/-- No probe result is ever committed for the own octet: its entry is the same
after any run. -/
theorem Server.run_own_entry (s : Server) (acts : List Action) (hinv : s.Inv) :
    (s.run acts).hosts.get s.my_octet = s.hosts.get s.my_octet := by
  induction acts generalizing s with
  | nil => rfl
  | cons a acts ih =>
    have hf := Server.step_facts s a hinv
    rw [Server.run_cons, ← hf.2.1, ih (s.step a) hf.1, hf.2.1]
    rcases hf.2.2.2.1 with h | ⟨octet, r, _, hne, h⟩
    · rw [h]
    · rw [h]
      exact arp_ping_get_ne _ _ _ _ (Ne.symm hne)

/-- Probe results are committed for keys of `1 .. 254` only: when these are
keys of the table, the key list is the same after any run. -/
theorem Server.run_keys (s : Server) (acts : List Action) (hinv : s.Inv)
    (hkeys : ∀ k : Int, 1 ≤ k ∧ k ≤ 254 → k ∈ s.hosts.keys) :
    (s.run acts).hosts.keys = s.hosts.keys := by
  induction acts generalizing s with
  | nil => rfl
  | cons a acts ih =>
    have hf := Server.step_facts s a hinv
    have hstep : (s.step a).hosts.keys = s.hosts.keys := by
      rcases hf.2.2.2.1 with h | ⟨octet, r, hrange, _, h⟩
      · rw [h]
      · rw [h]
        exact arp_ping_keys _ _ _ (hkeys octet hrange)
    rw [Server.run_cons, ih (s.step a) hf.1 (by rw [hstep]; exact hkeys), hstep]

/-- A worker with no address to probe is spinning after any run. -/
theorem Server.run_spinning (s : Server) (acts : List Action) (hinv : s.Inv) (j : Nat)
    (w : Worker) (hw : s.workers[j]? = some w) (hs : Worker.spinning s.my_octet w) :
    ∃ w2, (s.run acts).workers[j]? = some w2 ∧ Worker.spinning s.my_octet w2 := by
  induction acts generalizing s w with
  | nil => exact ⟨w, hw, hs⟩
  | cons a acts ih =>
    have hf := Server.step_facts s a hinv
    rw [Server.run_cons]
    rcases hf.2.2.2.2 j w hw with h | ⟨token, h⟩
    · have := ih (s.step a) hf.1 w h (by rw [hf.2.1]; exact hs)
      rw [hf.2.1] at this
      exact this
    · have := ih (s.step a) hf.1 _ h (by rw [hf.2.1]; exact work_step_spinning _ _ _ hs)
      rw [hf.2.1] at this
      exact this

theorem activeWorkers_pos (ws : List Worker) (j : Nat) (w : Worker) (hw : ws[j]? = some w)
    (hpc : w.pc ≠ PC.stopped) : 0 < activeWorkers ws := by
  induction ws generalizing j with
  | nil => simp at hw
  | cons a t ih =>
    cases j with
    | zero =>
      simp only [List.getElem?_cons_zero, Option.some.injEq] at hw
      subst hw
      simp [activeWorkers, hpc]
    | succ j =>
      simp only [List.getElem?_cons_succ] at hw
      have := ih j hw
      simp only [activeWorkers]
      omega

/-! ## Lemmas on a worker that finds a token -/

theorem StopsWithin_zero (my_octet : Int) (w : Worker) (h : w.pc = PC.stopped) (p q : Nat) :
    StopsWithin my_octet w 0 p q := by
  simp [StopsWithin, work_run, List.replicate, h, probedCount, sleptCount]

theorem StopsWithin_silent (my_octet : Int) (w w2 : Worker) (k p q : Nat)
    (hstep : work_step my_octet w true = (w2, Effect.silent))
    (h : StopsWithin my_octet w2 k p q) : StopsWithin my_octet w (k + 1) p q := by
  simp only [StopsWithin, List.replicate, work_run, hstep, probedCount, sleptCount]
  exact h

theorem StopsWithin_probed (my_octet : Int) (w w2 : Worker) (i : Int) (k p q : Nat)
    (hstep : work_step my_octet w true = (w2, Effect.probed i))
    (h : StopsWithin my_octet w2 k p q) : StopsWithin my_octet w (k + 1) (p + 1) q := by
  simp only [StopsWithin, List.replicate, work_run, hstep, probedCount, sleptCount]
  exact ⟨h.1, by have := h.2.1; omega, h.2.2⟩

theorem StopsWithin_slept (my_octet : Int) (w w2 : Worker) (ms : Nat) (k p q : Nat)
    (hstep : work_step my_octet w true = (w2, Effect.slept ms))
    (h : StopsWithin my_octet w2 k p q) : StopsWithin my_octet w (k + 1) p (q + 1) := by
  simp only [StopsWithin, List.replicate, work_run, hstep, probedCount, sleptCount]
  exact ⟨h.1, h.2.1, by have := h.2.2; omega⟩

theorem StopsWithin_token (my_octet : Int) (w w2 : Worker) (k p q : Nat)
    (hstep : work_step my_octet w true = (w2, Effect.received))
    (h : StopsWithin my_octet w2 k p q) : StopsWithin my_octet w (k + 1) p q := by
  simp only [StopsWithin, List.replicate, work_run, hstep, probedCount, sleptCount]
  exact h

theorem StopsWithin_received (my_octet : Int) (w w2 : Worker) (p q : Nat)
    (hstep : work_step my_octet w true = (w2, Effect.received)) (h2 : w2.pc = PC.stopped) :
    StopsWithin my_octet w 1 p q := by
  simp [StopsWithin, List.replicate, work_run, hstep, probedCount, sleptCount, h2]

/-- A worker that has returned stays returned, so a bound on the steps can be
raised. -/
theorem StopsWithin_succ (my_octet : Int) (w : Worker) (k p q : Nat)
    (h : StopsWithin my_octet w k p q) : StopsWithin my_octet w (k + 1) p q := by
  induction k generalizing w p q with
  | zero =>
    have hpc : w.pc = PC.stopped := by simpa [StopsWithin, work_run, List.replicate] using h.1
    obtain ⟨mn, mx, pc⟩ := w
    simp only at hpc
    subst hpc
    simp [StopsWithin, work_run, work_step, List.replicate, probedCount, sleptCount]
  | succ k ih =>
    cases he : (work_step my_octet w true).2 with
    | silent =>
      have hstep : work_step my_octet w true = ((work_step my_octet w true).1, Effect.silent) := by
        rw [← he]
      refine StopsWithin_silent my_octet w _ (k + 1) p q hstep (ih _ p q ?_)
      simp only [StopsWithin, List.replicate, work_run, he, probedCount, sleptCount] at h
      exact h
    | probed i =>
      have hstep : work_step my_octet w true = ((work_step my_octet w true).1, Effect.probed i) := by
        rw [← he]
      simp only [StopsWithin, List.replicate, work_run, he, probedCount, sleptCount] at h
      have hp : 1 ≤ p := by have := h.2.1; omega
      have h2 : StopsWithin my_octet (work_step my_octet w true).1 k (p - 1) q :=
        ⟨h.1, by have := h.2.1; omega, h.2.2⟩
      have h3 := StopsWithin_probed my_octet w _ i (k + 1) (p - 1) q hstep (ih _ _ _ h2)
      have hp2 : p - 1 + 1 = p := by omega
      rw [hp2] at h3
      exact h3
    | slept ms =>
      have hstep : work_step my_octet w true = ((work_step my_octet w true).1, Effect.slept ms) := by
        rw [← he]
      simp only [StopsWithin, List.replicate, work_run, he, probedCount, sleptCount] at h
      have hq : 1 ≤ q := by have := h.2.2; omega
      have h2 : StopsWithin my_octet (work_step my_octet w true).1 k p (q - 1) :=
        ⟨h.1, h.2.1, by have := h.2.2; omega⟩
      have h3 := StopsWithin_slept my_octet w _ ms (k + 1) p (q - 1) hstep (ih _ _ _ h2)
      have hq2 : q - 1 + 1 = q := by omega
      rw [hq2] at h3
      exact h3
    | received =>
      have hstep : work_step my_octet w true = ((work_step my_octet w true).1, Effect.received) := by
        rw [← he]
      refine StopsWithin_token my_octet w _ (k + 1) p q hstep (ih _ p q ?_)
      simp only [StopsWithin, List.replicate, work_run, he, probedCount, sleptCount] at h
      exact h

theorem StopsWithin_mono (my_octet : Int) (w : Worker) (k k2 p p2 q q2 : Nat)
    (h : StopsWithin my_octet w k p q) (hk : k ≤ k2) (hp : p ≤ p2) (hq : q ≤ q2) :
    StopsWithin my_octet w k2 p2 q2 := by
  have hbig : StopsWithin my_octet w k2 p q := by
    obtain ⟨d, rfl⟩ := Nat.exists_eq_add_of_le hk
    induction d with
    | zero => exact h
    | succ d ih => exact StopsWithin_succ my_octet w (k + d) p q (ih (by omega))
  exact ⟨hbig.1, le_trans hbig.2.1 hp, le_trans hbig.2.2 hq⟩

/-- From the start of a probe: the probe completes, the first check of the
polling loop finds the token, `work` returns. -/
theorem stops_from_probing (my_octet mn mx i : Int) :
    StopsWithin my_octet ⟨mn, mx, PC.probing i⟩ 2 1 0 := by
  have h2 : StopsWithin my_octet ⟨mn, mx, PC.poll i 0⟩ 1 0 0 :=
    StopsWithin_received my_octet _ ⟨mn, mx, PC.stopped⟩ 0 0
      (by simp [work_step, WORKER_SLEEP_SEC]) rfl
  exact StopsWithin_probed my_octet _ _ i 1 0 0 (by simp [work_step]) h2

theorem stops_from_probeable (my_octet mn mx i : Int) (h1 : i ≤ mx) (h2 : i ≠ my_octet) :
    StopsWithin my_octet ⟨mn, mx, PC.inner i⟩ 3 1 0 :=
  StopsWithin_silent my_octet _ ⟨mn, mx, PC.probing i⟩ 2 1 0
    (by simp [work_step, h1, h2]) (stops_from_probing my_octet mn mx i)

theorem stops_from_outer (my_octet mn mx a : Int)
    (ha : mn ≤ a ∧ a ≤ mx ∧ a ≠ my_octet) :
    StopsWithin my_octet ⟨mn, mx, PC.outer⟩ 5 1 0 := by
  refine StopsWithin_silent my_octet _ ⟨mn, mx, PC.inner mn⟩ 4 1 0 (by simp [work_step]) ?_
  by_cases hmn : mn = my_octet
  · have h1 : mn ≤ mx := by omega
    have hstep : work_step my_octet ⟨mn, mx, PC.inner mn⟩ true =
        (⟨mn, mx, PC.inner (mn + 1)⟩, Effect.silent) := by
      simp only [work_step, h1, if_true]
      simp [hmn]
    refine StopsWithin_silent my_octet _ ⟨mn, mx, PC.inner (mn + 1)⟩ 3 1 0 hstep ?_
    exact stops_from_probeable my_octet mn mx (mn + 1) (by omega) (by omega)
  · exact StopsWithin_mono _ _ 3 4 1 1 0 0
      (stops_from_probeable my_octet mn mx mn (by omega) hmn) (by omega) (by omega) (by omega)

theorem stops_from_inner (my_octet mn mx a i : Int)
    (ha : mn ≤ a ∧ a ≤ mx ∧ a ≠ my_octet) :
    StopsWithin my_octet ⟨mn, mx, PC.inner i⟩ 7 1 0 := by
  by_cases h1 : i ≤ mx
  · by_cases h2 : i = my_octet
    · have hstep : work_step my_octet ⟨mn, mx, PC.inner i⟩ true =
          (⟨mn, mx, PC.inner (i + 1)⟩, Effect.silent) := by
        simp only [work_step, h1, if_true]
        simp [h2]
      refine StopsWithin_silent my_octet _ ⟨mn, mx, PC.inner (i + 1)⟩ 6 1 0 hstep ?_
      by_cases h3 : i + 1 ≤ mx
      · exact StopsWithin_mono _ _ 3 6 1 1 0 0
          (stops_from_probeable my_octet mn mx (i + 1) h3 (by omega))
          (by omega) (by omega) (by omega)
      · refine StopsWithin_silent my_octet _ ⟨mn, mx, PC.outer⟩ 5 1 0
          (by simp [work_step, h3]) (stops_from_outer my_octet mn mx a ha)
    · exact StopsWithin_mono _ _ 3 7 1 1 0 0
        (stops_from_probeable my_octet mn mx i h1 h2) (by omega) (by omega) (by omega)
  · refine StopsWithin_silent my_octet _ ⟨mn, mx, PC.outer⟩ 6 1 0 (by simp [work_step, h1]) ?_
    exact StopsWithin_mono _ _ 5 6 1 1 0 0 (stops_from_outer my_octet mn mx a ha)
      (by omega) (by omega) (by omega)

theorem stops_from_poll (my_octet mn mx a i : Int) (j : Nat)
    (ha : mn ≤ a ∧ a ≤ mx ∧ a ≠ my_octet) :
    StopsWithin my_octet ⟨mn, mx, PC.poll i j⟩ 8 1 0 := by
  by_cases hj : j < 2 * WORKER_SLEEP_SEC
  · exact StopsWithin_mono _ _ 1 8 0 1 0 0
      (StopsWithin_received my_octet _ ⟨mn, mx, PC.stopped⟩ 0 0 (by simp [work_step, hj]) rfl)
      (by omega) (by omega) (by omega)
  · exact StopsWithin_silent my_octet _ ⟨mn, mx, PC.inner (i + 1)⟩ 7 1 0
      (by simp [work_step, hj]) (stops_from_inner my_octet mn mx a (i + 1) ha)

/-- Once a token is available at every check, a worker whose segment holds an
address other than the own octet returns within 9 steps from any control
point, completing at most one probe and at most one sleep on the way. -/
theorem worker_stops_when_token_available (my_octet : Int) (w : Worker) (a : Int)
    (ha : w.min ≤ a ∧ a ≤ w.max ∧ a ≠ my_octet) :
    StopsWithin my_octet w 9 1 1 := by
  obtain ⟨mn, mx, pc⟩ := w
  simp only at ha
  cases pc with
  | outer =>
    exact StopsWithin_mono _ _ 5 9 1 1 0 1 (stops_from_outer my_octet mn mx a ha)
      (by omega) (by omega) (by omega)
  | inner i =>
    exact StopsWithin_mono _ _ 7 9 1 1 0 1 (stops_from_inner my_octet mn mx a i ha)
      (by omega) (by omega) (by omega)
  | probing i =>
    exact StopsWithin_mono _ _ 2 9 1 1 0 1 (stops_from_probing my_octet mn mx i)
      (by omega) (by omega) (by omega)
  | poll i j =>
    exact StopsWithin_mono _ _ 8 9 1 1 0 1 (stops_from_poll my_octet mn mx a i j ha)
      (by omega) (by omega) (by omega)
  | sleeping i j =>
    exact StopsWithin_slept my_octet _ ⟨mn, mx, PC.poll i (j + 1)⟩ SLEEP_INCREMENT_MS 8 1 0
      (by simp [work_step]) (stops_from_poll my_octet mn mx a i (j + 1) ha)
  | stopped =>
    exact StopsWithin_mono _ _ 0 9 1 1 1 1 (StopsWithin_zero my_octet _ rfl 1 1)
      (by omega) (by omega) (by omega)

/-- A worker with no address to probe never returns, token or not. -/
theorem spinning_never_stops (my_octet : Int) (w : Worker) (tokens : List Bool)
    (hs : Worker.spinning my_octet w) : (work_run my_octet w tokens).1.pc ≠ PC.stopped := by
  induction tokens generalizing w with
  | nil => exact spinning_notStopped my_octet w hs
  | cons t ts ih =>
    simp only [work_run]
    exact ih _ (work_step_spinning my_octet w t hs)

/-! ## Lemmas on the token accounting -/

theorem work_step_received_token (my_octet : Int) (w : Worker) (token : Bool)
    (he : (work_step my_octet w token).2 = Effect.received) : token = true := by
  obtain ⟨mn, mx, pc⟩ := w
  cases pc with
  | poll i j =>
    simp only [work_step] at he
    split_ifs at he with h1 h2
    exact h2
  | outer => simp [work_step] at he
  | inner i => simp only [work_step] at he; split_ifs at he
  | probing i => simp [work_step] at he
  | sleeping i j => simp [work_step] at he
  | stopped => simp [work_step] at he

theorem Server.step_tokens (s : Server) (a : Action) (hinv : s.Inv) (ht : s.TokenInv) :
    (s.step a).TokenInv ∧ (s.step a).number_of_goroutines = s.number_of_goroutines := by
  have hb := ht.balance
  have hwl := ht.wg_le
  have hnn := ht.n_nonneg
  cases a with
  | signal =>
    cases hh : s.handler with
    | none =>
      have e : s.step Action.signal = { s with handler := some 0 } := by
        simp only [Server.step, hh]
      rw [e]
      have hs : s.sent = 0 := by simp [Server.sent, hh]
      refine ⟨⟨?_, hwl, hnn, ?_⟩, rfl⟩
      · show s.ch + s.number_of_goroutines.toNat = s.wg + (0 : Int).toNat
        simp only [Int.toNat_zero]
        omega
      · intro i hi
        have h0 : (0 : Int) = i := Option.some.inj hi
        show 0 ≤ i ∧ i ≤ s.number_of_goroutines
        constructor <;> omega
    | some i =>
      have e : s.step Action.signal = s := by simp only [Server.step, hh]
      rw [e]
      exact ⟨ht, rfl⟩
  | send =>
    cases hh : s.handler with
    | none =>
      have e : s.step Action.send = s := by simp only [Server.step, hh]
      rw [e]
      exact ⟨ht, rfl⟩
    | some i =>
      have e : s.step Action.send =
          if i < s.number_of_goroutines then
            if (s.ch : Int) < s.number_of_goroutines then
              { s with ch := s.ch + 1, handler := some (i + 1) }
            else s
          else s := by simp only [Server.step, hh]
      rw [e]
      have hc := ht.counter i hh
      have hs : s.sent = i.toNat := by simp [Server.sent, hh]
      split_ifs with h1 h2
      · refine ⟨⟨?_, hwl, hnn, ?_⟩, rfl⟩
        · show s.ch + 1 + s.number_of_goroutines.toNat = s.wg + (i + 1).toNat
          omega
        · intro k hk
          have h0 : i + 1 = k := Option.some.inj hk
          show 0 ≤ k ∧ k ≤ s.number_of_goroutines
          constructor <;> omega
      · exact ⟨ht, rfl⟩
      · exact ⟨ht, rfl⟩
  | worker k r =>
    cases hw : s.workers[k]? with
    | none =>
      have e : s.step (Action.worker k r) = s := by simp only [Server.step, hw]
      rw [e]
      exact ⟨ht, rfl⟩
    | some w =>
      have e : s.step (Action.worker k r) =
          Server.apply
            { s with workers := s.workers.set k (work_step s.my_octet w (decide (0 < s.ch))).1 }
            r (work_step s.my_octet w (decide (0 < s.ch))).2 := by
        simp only [Server.step, hw]
      rw [e]
      cases he : (work_step s.my_octet w (decide (0 < s.ch))).2 with
      | silent => exact ⟨⟨hb, hwl, hnn, ht.counter⟩, rfl⟩
      | slept ms => exact ⟨⟨hb, hwl, hnn, ht.counter⟩, rfl⟩
      | probed octet => exact ⟨⟨hb, hwl, hnn, ht.counter⟩, rfl⟩
      | received =>
        have htok := work_step_received_token _ _ _ he
        have hch : 0 < s.ch := by simpa using htok
        have hact := (work_step_active s.my_octet w (decide (0 < s.ch))).1 he
        have hpos := activeWorkers_pos s.workers k w hw hact.1
        have hwg := hinv.wg_count
        refine ⟨⟨?_, ?_, hnn, ht.counter⟩, rfl⟩
        · show s.ch - 1 + s.number_of_goroutines.toNat = s.wg - 1 + s.sent
          omega
        · show s.wg - 1 ≤ s.number_of_goroutines.toNat
          omega

theorem Server.run_tokens (s : Server) (acts : List Action) (hinv : s.Inv) (ht : s.TokenInv) :
    (s.run acts).TokenInv ∧ (s.run acts).number_of_goroutines = s.number_of_goroutines := by
  induction acts generalizing s with
  | nil => exact ⟨ht, rfl⟩
  | cons a acts ih =>
    have hf := Server.step_facts s a hinv
    have hs := Server.step_tokens s a hinv ht
    have := ih (s.step a) hf.1 hs.1
    rw [Server.run_cons]
    exact ⟨this.1, this.2.trans hs.2⟩

/-- Once the handler has sent all `n` tokens, the channel holds one token for
each worker that has not returned: a worker that reaches its check finds one. -/
theorem Server.tokens_after_posting (s : Server) (hinv : s.Inv) (ht : s.TokenInv)
    (hposted : s.handler = some s.number_of_goroutines) :
    s.ch = activeWorkers s.workers ∧
    ∀ (k : Nat) (w : Worker), s.workers[k]? = some w → w.pc ≠ PC.stopped → 0 < s.ch := by
  have hb := ht.balance
  have hnn := ht.n_nonneg
  have hs : s.sent = s.number_of_goroutines.toNat := by simp [Server.sent, hposted]
  have hch : s.ch = activeWorkers s.workers := by
    rw [← hinv.wg_count]
    omega
  refine ⟨hch, ?_⟩
  intro k w hw hpc
  rw [hch]
  exact activeWorkers_pos s.workers k w hw hpc

/-- The handler's send never blocks: while it still has tokens to send, the
channel is not full. -/
theorem Server.send_not_blocked (s : Server) (ht : s.TokenInv) (i : Int)
    (hh : s.handler = some i) (hi : i < s.number_of_goroutines) :
    (s.ch : Int) < s.number_of_goroutines := by
  have hb := ht.balance
  have hwl := ht.wg_le
  have hnn := ht.n_nonneg
  have hc := ht.counter i hh
  have hs : s.sent = i.toNat := by simp [Server.sent, hh]
  omega

/-! ## Lemmas on `ServerFactory` -/

theorem foldl_set_keys (l : List Int) (h0 : Hosts) (hnodup : l.Nodup)
    (hdisj : ∀ i ∈ l, i ∉ h0.keys) :
    (l.foldl (fun acc i => Hosts.set acc i NOT_FOUND) h0).keys = h0.keys ++ l := by
  induction l generalizing h0 with
  | nil => simp
  | cons a t ih =>
    have hnd := List.nodup_cons.mp hnodup
    have hkeys := Hosts.keys_set_not_mem h0 a NOT_FOUND (hdisj a (List.mem_cons_self a t))
    rw [List.foldl_cons, ih (h0.set a NOT_FOUND) hnd.2, hkeys]
    · simp
    · intro i hi
      rw [hkeys]
      simp only [List.mem_append, List.mem_singleton, not_or]
      refine ⟨hdisj i (List.mem_cons_of_mem a hi), ?_⟩
      rintro rfl
      exact hnd.1 hi

theorem foldl_set_get (l : List Int) (h0 : Hosts) (k : Int) (h0k : h0.get k = NOT_FOUND) :
    (l.foldl (fun acc i => Hosts.set acc i NOT_FOUND) h0).get k = NOT_FOUND := by
  induction l generalizing h0 with
  | nil => exact h0k
  | cons a t ih =>
    rw [List.foldl_cons]
    apply ih
    by_cases hka : k = a
    · subst hka
      exact Hosts.get_set_same _ _ _
    · rw [Hosts.get_set_ne _ _ _ _ hka]
      exact h0k

theorem emptyHosts_keys :
    emptyHosts.keys = (List.range 254).map (fun (k : Nat) => (k : Int) + 1) := by
  unfold emptyHosts
  rw [forLoop_first_last, foldl_set_keys _ [] addresses_sorted.nodup (by simp [Hosts.keys])]
  simp [Hosts.keys]

theorem emptyHosts_get (k : Int) : emptyHosts.get k = NOT_FOUND := by
  unfold emptyHosts
  rw [forLoop_first_last]
  exact foldl_set_get _ [] k rfl

theorem segment_min_ge (n i : Int) : 1 ≤ segment_min n i := by
  unfold segment_min
  simp only [ADDRESS_FIRST]
  split_ifs <;> omega

theorem segment_max_le (n i : Int) : segment_max n i ≤ 254 := by
  unfold segment_max
  simp only [ADDRESS_LAST]
  split_ifs <;> omega

theorem activeWorkers_fresh (segs : List (Int × Int)) :
    activeWorkers (segs.map (fun seg => ({ min := seg.1, max := seg.2, pc := PC.outer } : Worker)))
      = segs.length := by
  induction segs with
  | nil => rfl
  | cons a t ih =>
    simp only [List.map_cons, activeWorkers, List.length_cons, ih]
    simp
    omega

/-- When `ServerFactory` returns: the own address ends in an integer, the
worker count is at least 1 and `cidr` has at least three components.  The
server it returns is the one written out here. -/
theorem ServerFactory_eq_some (url_base cidr my_ipv4 my_mac : String) (n octet : Int)
    (ho : Atoi ((Split my_ipv4 '.').getLast?.getD "") = some octet) (hn : 1 ≤ n)
    (hc : 3 ≤ (Split cidr '.').length) :
    ServerFactory url_base cidr my_ipv4 my_mac n = some
      { wg := n.toNat
        ch := 0
        number_of_goroutines := n
        url_base := url_base
        pfx := Join ((Split cidr '.').take 3) "." ++ "."
        my_octet := octet
        my_mac := my_mac
        hosts := emptyHosts.set octet my_mac
        workers := (segments n).map (fun seg => { min := seg.1, max := seg.2, pc := PC.outer })
        handler := none } := by
  have h1 : ¬ n < 0 := by omega
  have h2 : ¬ (Split cidr '.').length < 3 := by omega
  have h3 : ¬ n = 0 := by omega
  simp only [ServerFactory, ho, h1, h2, h3, if_false]

theorem ServerFactory_some_inputs (url_base cidr my_ipv4 my_mac : String) (n : Int) (s : Server)
    (h : ServerFactory url_base cidr my_ipv4 my_mac n = some s) :
    ∃ octet, Atoi ((Split my_ipv4 '.').getLast?.getD "") = some octet ∧ 1 ≤ n ∧
      3 ≤ (Split cidr '.').length := by
  unfold ServerFactory at h
  cases ho : Atoi ((Split my_ipv4 '.').getLast?.getD "") with
  | none => simp [ho] at h
  | some octet =>
    simp only [ho] at h
    split_ifs at h with h1 h2 h3
    exact ⟨octet, rfl, by omega, by omega⟩

set_option maxRecDepth 10000 in
theorem ServerFactory_inv (url_base cidr my_ipv4 my_mac : String) (n : Int) (s : Server)
    (h : ServerFactory url_base cidr my_ipv4 my_mac n = some s) :
    s.Inv ∧ s.my_mac = my_mac ∧ s.hosts = emptyHosts.set s.my_octet my_mac ∧
    s.workers = (segments n).map (fun seg => { min := seg.1, max := seg.2, pc := PC.outer }) ∧
    Atoi ((Split my_ipv4 '.').getLast?.getD "") = some s.my_octet := by
  obtain ⟨octet, ho, hn, hc⟩ := ServerFactory_some_inputs _ _ _ _ _ _ h
  rw [ServerFactory_eq_some url_base cidr my_ipv4 my_mac n octet ho hn hc] at h
  simp only [Option.some.injEq] at h
  subst h
  refine ⟨⟨?_, ?_⟩, rfl, rfl, rfl, ho⟩
  · intro w hw
    simp only [List.mem_map] at hw
    obtain ⟨seg, hseg, rfl⟩ := hw
    simp only [segments, List.mem_map] at hseg
    obtain ⟨i, _, rfl⟩ := hseg
    exact ⟨trivial, segment_min_ge _ _, segment_max_le _ _⟩
  · show n.toNat = _
    rw [activeWorkers_fresh, segments_length]

theorem ServerFactory_workers_get (url_base cidr my_ipv4 my_mac : String) (n : Int) (s : Server)
    (h : ServerFactory url_base cidr my_ipv4 my_mac n = some s) (i : Nat) (hi : (i : Int) < n) :
    s.workers[i]? = some ⟨segment_min n i, segment_max n i, PC.outer⟩ := by
  rw [(ServerFactory_inv _ _ _ _ _ _ h).2.2.2.1, List.getElem?_map, segments_get n i hi]
  rfl

set_option maxRecDepth 10000 in
theorem ServerFactory_tokenInv (url_base cidr my_ipv4 my_mac : String) (n : Int) (s : Server)
    (h : ServerFactory url_base cidr my_ipv4 my_mac n = some s) :
    s.TokenInv ∧ s.number_of_goroutines = n := by
  obtain ⟨octet, ho, hn, hc⟩ := ServerFactory_some_inputs _ _ _ _ _ _ h
  rw [ServerFactory_eq_some url_base cidr my_ipv4 my_mac n octet ho hn hc] at h
  simp only [Option.some.injEq] at h
  subst h
  refine ⟨⟨?_, ?_, ?_, ?_⟩, rfl⟩
  · show 0 + n.toNat = n.toNat + 0
    omega
  · show n.toNat ≤ n.toNat
    omega
  · show 0 ≤ n
    omega
  · intro i hi
    exact Option.noConfusion hi

/-- After any run of a server built by `ServerFactory` in which the handler
has sent all its tokens, every worker that has not returned finds a token in
the channel. -/
theorem shutdown_tokens_available (url_base cidr my_ipv4 my_mac : String) (n : Int)
    (s : Server) (h : ServerFactory url_base cidr my_ipv4 my_mac n = some s)
    (acts : List Action) (hposted : (s.run acts).handler = some n)
    (k : Nat) (w : Worker) (hw : (s.run acts).workers[k]? = some w)
    (hpc : w.pc ≠ PC.stopped) : 0 < (s.run acts).ch := by
  have hinv := (ServerFactory_inv _ _ _ _ _ _ h).1
  have ht := ServerFactory_tokenInv _ _ _ _ _ _ h
  have hrun := Server.run_inv s acts hinv
  have htok := Server.run_tokens s acts hinv ht.1
  have hn : (s.run acts).number_of_goroutines = n := htok.2.trans ht.2
  exact (Server.tokens_after_posting _ hrun.1 htok.1 (by rw [hn]; exact hposted)).2 k w hw hpc

/-- A worker started by `ServerFactory` on a segment that holds no address
other than the own octet never returns, whatever the schedule, the probe
outcomes and the tokens; so `s.wg.Wait()` never returns. -/
theorem worker_without_address_never_stops (url_base cidr my_ipv4 my_mac : String) (n : Int)
    (s : Server) (h : ServerFactory url_base cidr my_ipv4 my_mac n = some s)
    (k : Nat) (hk : (k : Int) < n)
    (hseg : ∀ a : Int, in_segment n k a → a = s.my_octet) (acts : List Action) :
    (∃ w, (s.run acts).workers[k]? = some w ∧ w.pc ≠ PC.stopped) ∧
    ¬ (s.run acts).waitReturns := by
  have hinv := (ServerFactory_inv _ _ _ _ _ _ h).1
  have hwk := ServerFactory_workers_get _ _ _ _ _ _ h k hk
  obtain ⟨w2, hw2, hsp⟩ := Server.run_spinning s acts hinv k _ hwk
    ⟨fun a h1 h2 => hseg a ⟨h1, h2⟩, Or.inl rfl⟩
  have hns := spinning_notStopped _ _ hsp
  refine ⟨⟨w2, hw2, hns⟩, ?_⟩
  have hrun := Server.run_inv s acts hinv
  have hpos := activeWorkers_pos _ k w2 hw2 hns
  unfold Server.waitReturns
  rw [hrun.1.wg_count]
  omega

/-- For every worker count of 129 or more, the segment of worker 0 is empty. -/
theorem first_segment_empty (n : Int) (hn : 129 ≤ n) (a : Int) : ¬ in_segment n ((0 : Nat) : Int) a := by
  have hsize : segment_size n ≤ 1 := by
    have hm := segment_size_mul_le n (by omega)
    have h0 := segment_size_nonneg n (by omega)
    by_contra hcon
    have : n * 2 ≤ n * segment_size n := Int.mul_le_mul_of_nonneg_left (by omega) (by omega)
    omega
  have h1 := segment_min_ge n ((0 : Nat) : Int)
  have h2 : segment_max n ((0 : Nat) : Int) ≤ 0 := by
    unfold segment_max
    simp only [ADDRESS_LAST]
    split_ifs <;> simp <;> omega
  rintro ⟨h3, h4⟩
  omega

/-- Under the three conditions `ServerFactory` returns a server, which
satisfies the invariant, has the parsed octet and the given identifier, the
table `emptyHosts` with the own entry set, and one worker per segment. -/
theorem ServerFactory_returns (url_base cidr my_ipv4 my_mac : String) (n o : Int)
    (ho : Atoi ((Split my_ipv4 '.').getLast?.getD "") = some o) (hn : 1 ≤ n)
    (hc : 3 ≤ (Split cidr '.').length) :
    ∃ s, ServerFactory url_base cidr my_ipv4 my_mac n = some s ∧ s.Inv ∧ s.my_octet = o ∧
      s.my_mac = my_mac ∧ s.hosts = emptyHosts.set o my_mac ∧
      s.workers.length = n.toNat ∧
      ∀ i : Nat, (i : Int) < n →
        s.workers[i]? = some ⟨segment_min n i, segment_max n i, PC.outer⟩ := by
  have heq := ServerFactory_eq_some url_base cidr my_ipv4 my_mac n o ho hn hc
  have hinv := ServerFactory_inv _ _ _ _ _ _ heq
  have ho2 := hinv.2.2.2.2
  rw [ho] at ho2
  have ho3 : o = _ := Option.some.inj ho2
  refine ⟨_, heq, hinv.1, ho3.symm, hinv.2.1, ?_, ?_, ?_⟩
  · rw [hinv.2.2.1, ← ho3]
  · rw [hinv.2.2.2.1, List.length_map, segments_length]
  · intro i hi
    exact ServerFactory_workers_get _ _ _ _ _ _ heq i hi

/-- With 128 workers and the own address ending in 1, worker 0 is started on
the segment `[1, 1]`, which holds the own octet only: it never returns. -/
theorem own_octet_segment_never_stops :
    ∃ s, ServerFactory "/" "192.168.1.0/24" "192.168.1.1" "B8:27:EB:01:0A:FF" 128 = some s ∧
      s.workers[0]? = some ⟨1, 1, PC.outer⟩ ∧
      ∀ acts : List Action,
        (∃ w, (s.run acts).workers[0]? = some w ∧ w.pc ≠ PC.stopped) ∧
        ¬ (s.run acts).waitReturns := by
  obtain ⟨s, heq, _, hoct, _, _, _, hget⟩ :=
    ServerFactory_returns "/" "192.168.1.0/24" "192.168.1.1" "B8:27:EB:01:0A:FF" 128 1
      (by decide) (by decide) (by decide)
  have hw0 := hget 0 (by decide)
  have hmin : segment_min 128 ((0 : Nat) : Int) = 1 := by decide
  have hmax : segment_max 128 ((0 : Nat) : Int) = 1 := by decide
  refine ⟨s, heq, by rw [hw0, hmin, hmax], ?_⟩
  intro acts
  refine worker_without_address_never_stops _ _ _ _ _ s heq 0 (by decide) ?_ acts
  rintro a ⟨h1, h2⟩
  rw [hmin] at h1
  rw [hmax] at h2
  rw [hoct]
  omega

/-! ## The model evaluated on concrete inputs -/

theorem example_segments :
    segments 1 = [(1, 254)] ∧
    segments 4 = [(1, 63), (64, 127), (128, 191), (192, 254)] ∧
    segments 3 = [(1, 84), (85, 169), (170, 254)] := by
  decide

theorem example_parse :
    Split "192.168.1.7" '.' = ["192", "168", "1", "7"] ∧ Atoi "7" = some 7 ∧
    Atoi "-12" = some (-12) ∧ Atoi "" = none ∧ Atoi "7a" = none ∧ Atoi "1_0" = none ∧
    Join ((Split "192.168.1.0/24" '.').take 3) "." ++ "." = "192.168.1." := by
  decide

set_option maxRecDepth 100000 in
theorem example_csv :
    exampleServer.csv "192.168.1." =
      "192.168.1.2,B8:27:EB:01:0A:FF\n192.168.1.7,AA:AA:AA:AA:AA:AA\n" := by
  decide

theorem example_run :
    (exampleServer.run exampleActs).hosts =
      [(1, "B8:27:EB:01:0A:01"), (2, "B8:27:EB:01:0A:FF"), (3, ""), (7, "AA:AA:AA:AA:AA:AA")] ∧
    (exampleServer.run exampleActs).workers = [⟨1, 254, PC.stopped⟩] ∧
    (exampleServer.run exampleActs).wg = 0 ∧ (exampleServer.run exampleActs).ch = 0 := by
  decide

/-! ## The claims -/

/-- C1, at the failing input: with six workers the segments are `[1,41]`,
`[42,83]`, `[84,125]`, `[126,167]`, `[168,209]`, `[210,251]`; address 252, which
lies in `1 .. 254`, is in the segment of no worker. -/
theorem segments_six_leave_gap :
    segments 6 = [(1, 41), (42, 83), (84, 125), (126, 167), (168, 209), (210, 251)] ∧
    (ADDRESS_FIRST ≤ 252 ∧ (252 : Int) ≤ ADDRESS_LAST) ∧
    ¬ ∃ i : Int, 0 ≤ i ∧ i < 6 ∧ in_segment 6 i 252 := by
  refine ⟨by decide, by decide, ?_⟩
  rintro ⟨i, h0, h6, hmin, hmax⟩
  have hs : segment_size 6 = 42 := by decide
  unfold segment_max at hmax
  simp only [hs, ADDRESS_LAST] at hmax
  split_ifs at hmax <;> omega

/-- C2: for every worker count `n ≥ 1` and any two distinct worker indices
`i, j < n`, no address lies in both the segment of worker `i` and the segment
of worker `j`. -/
theorem segments_pairwise_disjoint (n : Int) (i j : Nat) (a : Int)
    (hn : 1 ≤ n) (hi : (i : Int) < n) (hj : (j : Int) < n) (hij : i ≠ j) :
    (segments n)[i]? = some (segment_min n i, segment_max n i) ∧
    (segments n)[j]? = some (segment_min n j, segment_max n j) ∧
    ¬ (in_segment n i a ∧ in_segment n j a) := by
  refine ⟨segments_get n i hi, segments_get n j hj, ?_⟩
  rcases Nat.lt_or_gt_of_ne hij with h | h
  · exact segments_ordered n i j hn (by omega) a
  · intro hboth
    exact segments_ordered n j i hn (by omega) a ⟨hboth.2, hboth.1⟩

theorem segments_pairwise_disjoint_witness :
    (segments 4)[0]? = some (segment_min 4 (0 : Nat), segment_max 4 (0 : Nat)) ∧
    (segments 4)[1]? = some (segment_min 4 (1 : Nat), segment_max 4 (1 : Nat)) ∧
    ¬ (in_segment 4 (0 : Nat) 63 ∧ in_segment 4 (1 : Nat) 63) :=
  segments_pairwise_disjoint 4 0 1 63 (by decide) (by decide) (by decide) (by decide)

/-- C3: when the probe of address `A` succeeds with hardware address `X` (a nil
error), after `arp_ping` the entry of `A` is the text of `X` (its upper-case
colon-separated hex form, which is not the absent sentinel when `X` has at
least one byte), every entry of another address is unchanged, and the key set
is unchanged when `A` is a key of the table. -/
theorem arp_ping_success_commits (hosts : Hosts) (A : Int) (X : HardwareAddr) (d : Nat) :
    (arp_ping hosts A ⟨X, d, none⟩).get A = ToUpper (SprintMAC X) ∧
    (X ≠ [] → (arp_ping hosts A ⟨X, d, none⟩).get A ≠ NOT_FOUND) ∧
    (∀ B : Int, B ≠ A → (arp_ping hosts A ⟨X, d, none⟩).get B = hosts.get B) ∧
    (A ∈ hosts.keys → (arp_ping hosts A ⟨X, d, none⟩).keys = hosts.keys) := by
  have hstep : arp_ping hosts A ⟨X, d, none⟩ = hosts.set A (ToUpper (SprintMAC X)) := by
    simp [arp_ping]
  rw [hstep]
  refine ⟨Hosts.get_set_same _ _ _, ?_, ?_, ?_⟩
  · intro hX
    rw [Hosts.get_set_same]
    exact mac_str_ne_NOT_FOUND X hX
  · intro B hB
    exact Hosts.get_set_ne _ _ _ _ hB
  · intro hA
    exact Hosts.keys_set_mem _ _ _ hA

theorem arp_ping_success_commits_witness :
    (arp_ping [(5, ""), (6, "AA:AA:AA:AA:AA:AA")] 5 ⟨[0xb8, 0x27, 0xeb, 0x01, 0x0a, 0xff], 1200, none⟩).get 5
      = "B8:27:EB:01:0A:FF" ∧
    (arp_ping [(5, ""), (6, "AA:AA:AA:AA:AA:AA")] 5 ⟨[0xb8, 0x27, 0xeb, 0x01, 0x0a, 0xff], 1200, none⟩).get 5
      ≠ NOT_FOUND ∧
    (arp_ping [(5, ""), (6, "AA:AA:AA:AA:AA:AA")] 5 ⟨[0xb8, 0x27, 0xeb, 0x01, 0x0a, 0xff], 1200, none⟩).get 6
      = "AA:AA:AA:AA:AA:AA" ∧
    (arp_ping [(5, ""), (6, "AA:AA:AA:AA:AA:AA")] 5 ⟨[0xb8, 0x27, 0xeb, 0x01, 0x0a, 0xff], 1200, none⟩).keys
      = [5, 6] :=
  have h := arp_ping_success_commits [(5, ""), (6, "AA:AA:AA:AA:AA:AA")] 5
    [0xb8, 0x27, 0xeb, 0x01, 0x0a, 0xff] 1200
  ⟨h.1.trans (by decide), h.2.1 (by decide), (h.2.2.1 6 (by decide)).trans (by decide),
    (h.2.2.2 (by decide)).trans (by decide)⟩

/-- C4: when the probe of address `A` returns `arping.ErrTimeout`, after
`arp_ping` the entry of `A` is the absent sentinel whatever it was before,
every entry of another address is unchanged, and the key set is unchanged when
`A` is a key of the table. -/
theorem arp_ping_timeout_clears (hosts : Hosts) (A : Int) (m : HardwareAddr) (d : Nat) :
    (arp_ping hosts A ⟨m, d, some PingError.ErrTimeout⟩).get A = NOT_FOUND ∧
    (∀ B : Int, B ≠ A →
      (arp_ping hosts A ⟨m, d, some PingError.ErrTimeout⟩).get B = hosts.get B) ∧
    (A ∈ hosts.keys →
      (arp_ping hosts A ⟨m, d, some PingError.ErrTimeout⟩).keys = hosts.keys) := by
  have hstep : arp_ping hosts A ⟨m, d, some PingError.ErrTimeout⟩ = hosts.set A NOT_FOUND := by
    simp [arp_ping]
  rw [hstep]
  refine ⟨Hosts.get_set_same _ _ _, ?_, ?_⟩
  · intro B hB
    exact Hosts.get_set_ne _ _ _ _ hB
  · intro hA
    exact Hosts.keys_set_mem _ _ _ hA

theorem arp_ping_timeout_clears_witness :
    (arp_ping [(5, "B8:27:EB:01:0A:FF"), (6, "AA:AA:AA:AA:AA:AA")] 5
      ⟨[], 6000000, some PingError.ErrTimeout⟩).get 5 = "" ∧
    (arp_ping [(5, "B8:27:EB:01:0A:FF"), (6, "AA:AA:AA:AA:AA:AA")] 5
      ⟨[], 6000000, some PingError.ErrTimeout⟩).get 6 = "AA:AA:AA:AA:AA:AA" ∧
    (arp_ping [(5, "B8:27:EB:01:0A:FF"), (6, "AA:AA:AA:AA:AA:AA")] 5
      ⟨[], 6000000, some PingError.ErrTimeout⟩).keys = [5, 6] :=
  have h := arp_ping_timeout_clears [(5, "B8:27:EB:01:0A:FF"), (6, "AA:AA:AA:AA:AA:AA")] 5
    [] 6000000
  ⟨h.1, (h.2.1 6 (by decide)).trans (by decide), (h.2.2 (by decide)).trans (by decide)⟩

/-- C5: when the probe of address `A` returns an error other than
`arping.ErrTimeout`, `arp_ping` leaves the whole table unchanged; so an entry
that held `X` before still holds `X`. -/
theorem arp_ping_other_error_ignored (hosts : Hosts) (A : Int) (m : HardwareAddr) (d : Nat)
    (e : PingError) (he : e ≠ PingError.ErrTimeout) :
    arp_ping hosts A ⟨m, d, some e⟩ = hosts ∧
    ∀ X : String, hosts.get A = X → (arp_ping hosts A ⟨m, d, some e⟩).get A = X := by
  have hstep : arp_ping hosts A ⟨m, d, some e⟩ = hosts := by
    simp [arp_ping, he]
  rw [hstep]
  exact ⟨rfl, fun _ h => h⟩

theorem arp_ping_other_error_ignored_witness :
    arp_ping [(5, "B8:27:EB:01:0A:FF"), (6, "")] 5 ⟨[], 0, some (PingError.other "interface down")⟩
      = [(5, "B8:27:EB:01:0A:FF"), (6, "")] ∧
    (arp_ping [(5, "B8:27:EB:01:0A:FF"), (6, "")] 5
      ⟨[], 0, some (PingError.other "interface down")⟩).get 5 = "B8:27:EB:01:0A:FF" :=
  have h := arp_ping_other_error_ignored [(5, "B8:27:EB:01:0A:FF"), (6, "")] 5 [] 0
    (PingError.other "interface down") (by decide)
  ⟨h.1, h.2 "B8:27:EB:01:0A:FF" (by decide)⟩

/-- C9, as the code has it: for every table state and every prefix `pfx`,
`csv pfx` is the concatenation of the rows `<pfx><i>,<mac>` (each ended by a
newline) taken over the resolved addresses, which are listed in strictly
ascending order and are exactly the addresses `i` of `1 .. 254` whose entry is
not the absent sentinel, `<i>` being the decimal text of `i`; so the number of
rows is the number of such addresses.  When neither `pfx` nor any entry of an
address of `1 .. 254` holds a newline, the lines of `csv pfx` are these rows:
there is no line for an absent entry and the number of lines is the number of
resolved addresses. -/
theorem csv_rows_of_resolved (s : Server) (pfx : String) :
    s.csv pfx = String.join (csvRows s pfx) ∧
    List.Sorted (fun a b : Int => a < b) (resolvedAddresses s) ∧
    (∀ i : Int, i ∈ resolvedAddresses s ↔ (1 ≤ i ∧ i ≤ 254) ∧ s.hosts.get i ≠ NOT_FOUND) ∧
    (csvRows s pfx).length =
      ((Finset.Icc (1 : Int) 254).filter (fun i => s.hosts.get i ≠ NOT_FOUND)).card ∧
    (∀ i : Int, 1 ≤ i → i ≤ 254 →
      Atoi (Sprint i) = some i ∧ (Sprint i).data.all Char.isDigit = true ∧
      (Sprint i).data.head? ≠ some '0') ∧
    ('\n' ∉ pfx.data → (∀ i : Int, 1 ≤ i → i ≤ 254 → '\n' ∉ (s.hosts.get i).data) →
      textLines (s.csv pfx) =
        (resolvedAddresses s).map (fun i => pfx ++ Sprint i ++ "," ++ s.hosts.get i) ∧
      (textLines (s.csv pfx)).length =
        ((Finset.Icc (1 : Int) 254).filter (fun i => s.hosts.get i ≠ NOT_FOUND)).card) := by
  refine ⟨csv_eq_join_rows s pfx, resolvedAddresses_sorted s, mem_resolvedAddresses s, ?_, ?_, ?_⟩
  · rw [← resolvedAddresses_length]
    simp [csvRows]
  · intro i h1 h2
    exact Sprint_decimal i ((mem_addresses i).mpr ⟨h1, h2⟩)
  · intro hp hm
    have hlines : textLines (s.csv pfx) = (resolvedAddresses s).map (csvRowBody s pfx) := by
      rw [csv_eq_join_rows, csvRows_eq_bodies]
      apply textLines_join
      intro b hb
      obtain ⟨i, hi, rfl⟩ := List.mem_map.mp hb
      have hrange := ((mem_resolvedAddresses s i).mp hi).1
      exact csvRowBody_no_newline s pfx i hrange hp (hm i hrange.1 hrange.2)
    refine ⟨hlines, ?_⟩
    rw [hlines, List.length_map, resolvedAddresses_length]

set_option maxRecDepth 100000 in
theorem csv_rows_of_resolved_witness :
    exampleServer.csv "192.168.1." =
      "192.168.1.2,B8:27:EB:01:0A:FF\n192.168.1.7,AA:AA:AA:AA:AA:AA\n" ∧
    resolvedAddresses exampleServer = [2, 7] ∧
    (Atoi (Sprint 2) = some 2 ∧ Sprint 2 = "2" ∧ Sprint 7 = "7" ∧ Sprint 254 = "254") ∧
    textLines (exampleServer.csv "192.168.1.") =
      ["192.168.1.2,B8:27:EB:01:0A:FF", "192.168.1.7,AA:AA:AA:AA:AA:AA"] ∧
    (textLines (exampleServer.csv "192.168.1.")).length = 2 ∧
    ((Finset.Icc (1 : Int) 254).filter (fun i => exampleServer.hosts.get i ≠ NOT_FOUND)).card
      = 2 :=
  have h := csv_rows_of_resolved exampleServer "192.168.1."
  have hl := h.2.2.2.2.2 (by decide)
    (fun i h1 h2 =>
      (by decide : ∀ i ∈ (List.range 254).map (fun (k : Nat) => (k : Int) + 1),
        '\n' ∉ (exampleServer.hosts.get i).data) i ((mem_addresses i).mpr ⟨h1, h2⟩))
  have hres : resolvedAddresses exampleServer = [2, 7] := by decide
  have hlen : (textLines (exampleServer.csv "192.168.1.")).length = 2 := by
    rw [hl.1, hres]
    rfl
  ⟨h.1.trans (by decide), hres, ⟨(h.2.2.2.2.1 2 (by decide) (by decide)).1, by decide, by decide,
    by decide⟩, hl.1.trans (by rw [hres]; decide), hlen, by rw [← hl.2]; exact hlen⟩

/-- C9, as stated, fails: with the own address `192.168.1.3` and the own
identifier made of `X`, a newline and `192.168.1.4,Y` (as the environment
variable `MAC` can hold), the table built by `ServerFactory` has one resolved entry, at
address 3, and the entry of address 4 is absent; yet `csv` has two lines, the
second of which reads as a line for address 4. -/
theorem csv_lines_exceed_resolved :
    ∃ s, ServerFactory "/" "192.168.1.0/24" "192.168.1.3" "X\n192.168.1.4,Y" 4 = some s ∧
      resolvedAddresses s = [3] ∧
      ((Finset.Icc (1 : Int) 254).filter (fun i => s.hosts.get i ≠ NOT_FOUND)).card = 1 ∧
      s.hosts.get 4 = NOT_FOUND ∧
      s.csv "192.168.1." = "192.168.1.3,X\n192.168.1.4,Y\n" ∧
      textLines (s.csv "192.168.1.") = ["192.168.1.3,X", "192.168.1.4,Y"] ∧
      (textLines (s.csv "192.168.1.")).length ≠
        ((Finset.Icc (1 : Int) 254).filter (fun i => s.hosts.get i ≠ NOT_FOUND)).card := by
  obtain ⟨s, heq, _, _, _, hhosts, _, _⟩ :=
    ServerFactory_returns "/" "192.168.1.0/24" "192.168.1.3" "X\n192.168.1.4,Y" 4 3
      (by decide) (by decide) (by decide)
  have hget : ∀ i : Int, s.hosts.get i = if i = 3 then "X\n192.168.1.4,Y" else NOT_FOUND := by
    intro i
    rw [hhosts]
    by_cases hi : i = 3
    · subst hi
      rw [Hosts.get_set_same]
      rfl
    · rw [Hosts.get_set_ne _ _ _ _ hi, emptyHosts_get, if_neg hi]
  have hres : resolvedAddresses s = [3] := by
    unfold resolvedAddresses
    have hpred : (fun i : Int => decide (s.hosts.get i ≠ NOT_FOUND)) =
        (fun i : Int => decide (i = 3)) := by
      funext i
      rw [hget i]
      by_cases hi : i = 3
      · simp [hi, NOT_FOUND]
      · simp [hi]
    rw [hpred]
    decide
  have hcard : ((Finset.Icc (1 : Int) 254).filter (fun i => s.hosts.get i ≠ NOT_FOUND)).card
      = 1 := by
    rw [← resolvedAddresses_length, hres]
    rfl
  have hcsv : s.csv "192.168.1." = "192.168.1.3,X\n192.168.1.4,Y\n" := by
    rw [csv_eq_join_rows]
    unfold csvRows
    rw [hres, List.map_cons, List.map_nil, hget 3]
    decide
  have hlines : textLines (s.csv "192.168.1.") = ["192.168.1.3,X", "192.168.1.4,Y"] := by
    rw [hcsv]
    decide
  refine ⟨s, heq, hres, hcard, ?_, hcsv, hlines, ?_⟩
  · rw [hget 4]
    decide
  · rw [hlines, hcard]
    decide

/-- C10, as the code has it: a worker that has just completed a probe of
address `i` and finds no token at any check stays in the polling loop for
exactly 24 steps, in which it completes `2 * WORKER_SLEEP_SEC = 12` sleeps of
500 ms and no probe, 6000 ms in all (6 seconds, not 12); its next step leaves
the polling loop for the test of the next address without sleeping. -/
theorem waiting_pause_six_seconds (my_octet : Int) (w : Worker) (i : Int)
    (hpc : w.pc = PC.poll i 0) :
    (∀ k : Nat, k ≤ 24 →
      (work_run my_octet w (List.replicate k false)).1.pc =
        if k % 2 = 0 then PC.poll i (k / 2) else PC.sleeping i (k / 2)) ∧
    sleptCount (work_run my_octet w (List.replicate 24 false)).2 = 2 * WORKER_SLEEP_SEC ∧
    sleptCount (work_run my_octet w (List.replicate 24 false)).2 * SLEEP_INCREMENT_MS = 6000 ∧
    sleptMs (work_run my_octet w (List.replicate 24 false)).2 = 6000 ∧
    probedCount (work_run my_octet w (List.replicate 24 false)).2 = 0 ∧
    work_step my_octet (work_run my_octet w (List.replicate 24 false)).1 false =
      ({ w with pc := PC.inner (i + 1) }, Effect.silent) := by
  obtain ⟨mn, mx, pc⟩ := w
  simp only at hpc
  subst hpc
  refine ⟨?_, ?_, ?_, ?_, ?_, ?_⟩
  · intro k hk
    interval_cases k <;>
      simp [work_run, work_step, List.replicate, WORKER_SLEEP_SEC]
  all_goals
    simp [work_run, work_step, List.replicate, WORKER_SLEEP_SEC, SLEEP_INCREMENT_MS,
      sleptCount, sleptMs, probedCount]

theorem waiting_pause_six_seconds_witness :
    (∀ k : Nat, k ≤ 24 →
      (work_run 7 ⟨1, 63, PC.poll 1 0⟩ (List.replicate k false)).1.pc =
        if k % 2 = 0 then PC.poll 1 (k / 2) else PC.sleeping 1 (k / 2)) ∧
    sleptCount (work_run 7 ⟨1, 63, PC.poll 1 0⟩ (List.replicate 24 false)).2 = 2 * WORKER_SLEEP_SEC ∧
    sleptCount (work_run 7 ⟨1, 63, PC.poll 1 0⟩ (List.replicate 24 false)).2 * SLEEP_INCREMENT_MS
      = 6000 ∧
    sleptMs (work_run 7 ⟨1, 63, PC.poll 1 0⟩ (List.replicate 24 false)).2 = 6000 ∧
    probedCount (work_run 7 ⟨1, 63, PC.poll 1 0⟩ (List.replicate 24 false)).2 = 0 ∧
    work_step 7 (work_run 7 ⟨1, 63, PC.poll 1 0⟩ (List.replicate 24 false)).1 false =
      (⟨1, 63, PC.inner (1 + 1)⟩, Effect.silent) :=
  waiting_pause_six_seconds 7 ⟨1, 63, PC.poll 1 0⟩ 1 rfl

/-- C10, as stated, fails: for the worker of segment `[1, 63]` that has just
probed address 1 and finds no token, the polling increments it performs before
it leaves the polling loop, times the 500 ms of one increment, make 6000 ms,
which is not 12 seconds. -/
theorem waiting_pause_not_twelve_seconds :
    (work_run 7 ⟨1, 63, PC.poll 1 0⟩ (List.replicate 24 false)).1.pc = PC.poll 1 12 ∧
    (work_step 7 (work_run 7 ⟨1, 63, PC.poll 1 0⟩ (List.replicate 24 false)).1 false).1.pc
      = PC.inner 2 ∧
    sleptCount (work_run 7 ⟨1, 63, PC.poll 1 0⟩ (List.replicate 24 false)).2 = 12 ∧
    sleptCount (work_run 7 ⟨1, 63, PC.poll 1 0⟩ (List.replicate 24 false)).2 * SLEEP_INCREMENT_MS
      ≠ 12 * 1000 := by
  decide

/-- C6: when `ServerFactory` is given an own address whose last component
parses as the integer `o`, an own identifier `my_mac` and a worker count
`n ≥ 1` (and a `cidr` of at least three components, without which it does not
return), it returns a server whose table holds `my_mac` at `o`; after any
sequence of steps of any workers with any probe outcomes (and any signal
delivery) the table still holds `my_mac` at `o`, and no worker is ever probing
address `o`. -/
theorem own_entry_never_overwritten (url_base cidr my_ipv4 my_mac : String) (n o : Int)
    (ho : Atoi ((Split my_ipv4 '.').getLast?.getD "") = some o) (hn : 1 ≤ n)
    (hc : 3 ≤ (Split cidr '.').length) :
    ∃ s, ServerFactory url_base cidr my_ipv4 my_mac n = some s ∧ s.my_octet = o ∧
      s.hosts.get o = my_mac ∧
      ∀ acts : List Action,
        (s.run acts).hosts.get o = my_mac ∧
        ∀ w ∈ (s.run acts).workers, w.pc ≠ PC.probing o := by
  obtain ⟨s, heq, hinv, hoct, _, hhosts, _, _⟩ :=
    ServerFactory_returns url_base cidr my_ipv4 my_mac n o ho hn hc
  have h0 : s.hosts.get o = my_mac := by rw [hhosts]; exact Hosts.get_set_same _ _ _
  refine ⟨s, heq, hoct, h0, ?_⟩
  intro acts
  have hrun := Server.run_inv s acts hinv
  have hown := Server.run_own_entry s acts hinv
  rw [hoct] at hown
  refine ⟨hown.trans h0, ?_⟩
  intro w hw hpc
  have hok := (hrun.1.workers_ok w hw).1
  rw [hrun.2.1, hoct] at hok
  simp only [Worker.ok, hpc] at hok
  exact hok.2.2 rfl

theorem own_entry_never_overwritten_witness :
    ∃ s, ServerFactory "/" "192.168.1.0/24" "192.168.1.7" "B8:27:EB:01:0A:FF" 4 = some s ∧
      s.my_octet = 7 ∧ s.hosts.get 7 = "B8:27:EB:01:0A:FF" ∧
      ∀ acts : List Action,
        (s.run acts).hosts.get 7 = "B8:27:EB:01:0A:FF" ∧
        ∀ w ∈ (s.run acts).workers, w.pc ≠ PC.probing 7 :=
  own_entry_never_overwritten "/" "192.168.1.0/24" "192.168.1.7" "B8:27:EB:01:0A:FF" 4 7
    (by decide) (by decide) (by decide)

/-- C7, as the code has it: when the last component of the own address parses
as an integer `o` of `1 .. 254` (with `n ≥ 1` and a `cidr` of at least three
components), `ServerFactory` returns a server whose table, right after
construction and after any sequence of steps, has the keys `1, 2, .., 254`
once each and nothing else: 254 entries. -/
theorem hosts_keys_fixed (url_base cidr my_ipv4 my_mac : String) (n o : Int)
    (ho : Atoi ((Split my_ipv4 '.').getLast?.getD "") = some o) (hn : 1 ≤ n)
    (hc : 3 ≤ (Split cidr '.').length) (hrange : 1 ≤ o ∧ o ≤ 254) :
    ∃ s, ServerFactory url_base cidr my_ipv4 my_mac n = some s ∧
      ∀ acts : List Action,
        (s.run acts).hosts.keys = (List.range 254).map (fun (k : Nat) => (k : Int) + 1) ∧
        (s.run acts).hosts.len = 254 ∧
        (s.run acts).hosts.keys.Nodup ∧
        ∀ k : Int, k ∈ (s.run acts).hosts.keys ↔ 1 ≤ k ∧ k ≤ 254 := by
  obtain ⟨s, heq, hinv, _, _, hhosts, _, _⟩ :=
    ServerFactory_returns url_base cidr my_ipv4 my_mac n o ho hn hc
  refine ⟨s, heq, ?_⟩
  intro acts
  have hk0 : s.hosts.keys = (List.range 254).map (fun (k : Nat) => (k : Int) + 1) := by
    rw [hhosts, Hosts.keys_set_mem _ _ _
      (by rw [emptyHosts_keys]; exact (mem_addresses o).mpr hrange)]
    exact emptyHosts_keys
  have hkeys := Server.run_keys s acts hinv
    (fun k hk => by rw [hk0]; exact (mem_addresses k).mpr hk)
  have hall : (s.run acts).hosts.keys = (List.range 254).map (fun (k : Nat) => (k : Int) + 1) :=
    hkeys.trans hk0
  refine ⟨hall, ?_, ?_, ?_⟩
  · rw [Hosts.len_eq_keys_length, hall]
    simp
  · rw [hall]
    exact addresses_sorted.nodup
  · intro k
    rw [hall]
    exact mem_addresses k

theorem hosts_keys_fixed_witness :
    ∃ s, ServerFactory "/" "192.168.1.0/24" "192.168.1.7" "B8:27:EB:01:0A:FF" 4 = some s ∧
      ∀ acts : List Action,
        (s.run acts).hosts.keys = (List.range 254).map (fun (k : Nat) => (k : Int) + 1) ∧
        (s.run acts).hosts.len = 254 ∧
        (s.run acts).hosts.keys.Nodup ∧
        ∀ k : Int, k ∈ (s.run acts).hosts.keys ↔ 1 ≤ k ∧ k ≤ 254 :=
  hosts_keys_fixed "/" "192.168.1.0/24" "192.168.1.7" "B8:27:EB:01:0A:FF" 4 7
    (by decide) (by decide) (by decide) (by decide)

/-- C7, as stated, fails: the own address `10.1.0.255` is accepted by
`ServerFactory` (its last component parses as 255), and the table it builds
has 255 entries, the key 255 outside `1 .. 254` among them. -/
theorem hosts_keys_own_octet_outside :
    ∃ s, ServerFactory "/" "10.1.0.0/16" "10.1.0.255" "B8:27:EB:01:0A:FF" 4 = some s ∧
      s.hosts.len = 255 ∧ (255 : Int) ∈ s.hosts.keys ∧ ¬ ((255 : Int) ≤ ADDRESS_LAST) := by
  obtain ⟨s, heq, _, _, _, hhosts, _, _⟩ :=
    ServerFactory_returns "/" "10.1.0.0/16" "10.1.0.255" "B8:27:EB:01:0A:FF" 4 255
      (by decide) (by decide) (by decide)
  have hnot : (255 : Int) ∉ emptyHosts.keys := by
    rw [emptyHosts_keys, mem_addresses]
    omega
  have hk : s.hosts.keys = emptyHosts.keys ++ [255] := by
    rw [hhosts]
    exact Hosts.keys_set_not_mem _ _ _ hnot
  refine ⟨s, heq, ?_, ?_, by decide⟩
  · rw [Hosts.len_eq_keys_length, hk, emptyHosts_keys]
    simp
  · rw [hk]
    simp

/-- C8, at the failing input: with 129 workers `ServerFactory` starts worker 0
on the segment `[1, 0]`, which holds no address.  Whatever the schedule, the
probe outcomes and the tokens posted by the signal handler, that worker never
returns, so the wait group never reaches zero and `s.wg.Wait()` in `main`
never returns. -/
theorem empty_segment_worker_never_stops :
    ∃ s, ServerFactory "/" "192.168.1.0/24" "192.168.1.7" "B8:27:EB:01:0A:FF" 129 = some s ∧
      s.workers.length = 129 ∧
      s.workers[0]? = some ⟨1, 0, PC.outer⟩ ∧
      ∀ acts : List Action,
        (∃ w, (s.run acts).workers[0]? = some w ∧ w.pc ≠ PC.stopped) ∧
        ¬ (s.run acts).waitReturns := by
  obtain ⟨s, heq, _, _, _, _, hlen, hget⟩ :=
    ServerFactory_returns "/" "192.168.1.0/24" "192.168.1.7" "B8:27:EB:01:0A:FF" 129 7
      (by decide) (by decide) (by decide)
  have hw0 := hget 0 (by decide)
  have hmin : segment_min 129 ((0 : Nat) : Int) = 1 := by decide
  have hmax : segment_max 129 ((0 : Nat) : Int) = 0 := by decide
  rw [hmin, hmax] at hw0
  refine ⟨s, heq, hlen, hw0, ?_⟩
  intro acts
  exact worker_without_address_never_stops _ _ _ _ _ s heq 0 (by decide)
    (fun a ha => absurd ha (first_segment_empty 129 (by decide) a)) acts

end ARPmon
